import Mathlib

/-!
Verification development for the fsv layout/animation core.

Shallow embedding of the C sources:
* `src/animation.c`  — morph scheduler and frame-delayed event scheduler
* `src/colexp.c`     — collapse/expand controller
* `src/geometry.c`   — staged draw protocol, per-mode layout initialization,
                       MapV treemap block layout, TreeV platform reshaping

C doubles are modelled as real numbers, variables morphed by address as
variable identifiers (`Nat`) together with an environment `Nat → ℝ`, and
callback function pointers as identifiers whose invocations are logged.
-/

namespace Fsv

/-- EPSILON from common.h -/
noncomputable def EPSILON : ℝ := 1.0e-6

/-! ### Morph scheduler (src/animation.c) -/

/-- MorphType from animation.h: easing curve selectors. -/
inductive MorphType where
  | linear
  | quadratic
  | invQuadratic
  | sigmoid
  | sigmoidAccel
deriving DecidableEq, Repr

/-- One stage of a morph (struct Morph in animation.h, minus the `next`
pointer, which is represented by the stage list in `MorphRec`).
`var` is the identifier of the morphed variable (C: the `double *`);
`step_cb`/`end_cb` are optional callback identifiers (C: function pointers);
`data` is the opaque payload (C: `void *data`), modelled as an identifier. -/
structure Morph where
  type : MorphType
  var : ℕ
  start_value : ℝ
  end_value : ℝ
  t_start : ℝ
  t_end : ℝ
  step_cb : Option ℕ
  end_cb : Option ℕ
  data : ℕ

/-- A morph-queue record: the head stage plus the chain of later stages
(C: the `next`-linked list hanging off the queued Morph). -/
structure MorphRec where
  head : Morph
  rest : List Morph

/-- The variable environment: value of each morphable variable. -/
def Env : Type := ℕ → ℝ

/-- Write one variable (C: `*(morph->var) = value`). -/
def updVar (env : Env) (v : ℕ) (x : ℝ) : Env :=
  fun u => if u = v then x else env u

/-- A logged callback invocation. `kind` distinguishes step callbacks from
completion (end) callbacks; `var` is the variable of the morph passed to the
callback, `cb` the callback identifier, `data` the payload. -/
inductive CbKind where
  | step
  | finish
deriving DecidableEq, Repr

structure CbCall where
  kind : CbKind
  var : ℕ
  cb : ℕ
  data : ℕ

/-- last_morph_stage (animation.c:121-128): last stage of a multi-staged
morph, or the head if single-staged. -/
def last_morph_stage (m : Morph) (rest : List Morph) : Morph :=
  rest.getLastD m

/-- Core of morph_full (animation.c:137-180) on the queue: find the first
record morphing `var` (C: `g_list_find_custom` with `compare_var`) and append
the new stage to it, adjusting its start time/value to chain after the last
incumbent stage.  Returns `none` when no record morphs `var`. -/
def appendStage (new : Morph) (duration : ℝ) : List MorphRec → Option (List MorphRec)
  | [] => none
  | rec :: rest =>
    if rec.head.var = new.var then
      let mlast := last_morph_stage rec.head rec.rest
      some (⟨rec.head, rec.rest ++
        [{ new with t_start := mlast.t_end
                  , t_end := mlast.t_end + duration
                  , start_value := mlast.end_value }]⟩ :: rest)
    else
      (appendStage new duration rest).map (rec :: ·)

/-- morph_full (animation.c:137-180).  `t_now` models `xgettime()`.
If the variable is not yet being morphed the new record is prepended to the
queue (G_LIST_PREPEND); otherwise the new stage is chained after the last
stage of the incumbent record. -/
def morph_full (q : List MorphRec) (env : Env) (var : ℕ) (type : MorphType)
    (target_value duration t_now : ℝ)
    (step_cb end_cb : Option ℕ) (data : ℕ) : List MorphRec :=
  let new : Morph :=
    { type := type, var := var, start_value := env var, end_value := target_value
    , t_start := t_now, t_end := t_now + duration
    , step_cb := step_cb, end_cb := end_cb, data := data }
  match appendStage new duration q with
  | none => ⟨new, []⟩ :: q
  | some q' => q'

/-- morph (animation.c:184-188): morph_full with no callbacks nor data. -/
def morph (q : List MorphRec) (env : Env) (var : ℕ) (type : MorphType)
    (target_value duration t_now : ℝ) : List MorphRec :=
  morph_full q env var type target_value duration t_now none none 0

/-- morph_finish (animation.c:194-207): zero out the end time of the head
stage of the first record morphing `var`; silently a no-op when `var` is not
being morphed.  The variable itself and the callback log are untouched (the C
function writes only `morph->t_end`). -/
def morph_finish (var : ℕ) : List MorphRec → List MorphRec
  | [] => []
  | rec :: rest =>
    if rec.head.var = var then
      ⟨{ rec.head with t_end := 0.0 }, rec.rest⟩ :: rest
    else
      rec :: morph_finish var rest

/-- morph_break (animation.c:213-234): remove (and free) the first record
morphing `var` together with all of its chained stages; silently a no-op when
`var` is not being morphed.  No callback fires and the variable keeps its
current value. -/
def morph_break (var : ℕ) : List MorphRec → List MorphRec
  | [] => []
  | rec :: rest =>
    if rec.head.var = var then rest
    else rec :: morph_break var rest

/-- The easing-curve remapping of normalized progress
(animation.c:277-303). -/
noncomputable def morphRemap (type : MorphType) (percent : ℝ) : ℝ :=
  match type with
  | .linear => percent
  | .quadratic => percent * percent
  | .invQuadratic => 1.0 - (1.0 - percent) * (1.0 - percent)
  | .sigmoid => 0.5 * (1.0 - Real.cos (Real.pi * percent))
  | .sigmoidAccel => 0.5 * (1.0 - Real.cos (Real.pi * (percent * percent)))

/-- Per-record step of morph_iteration (animation.c:252-314).  A completed
head stage assigns the end value, fires the end callback, and drops in the
next chained stage, which is examined at once (the C `continue` re-enters the
loop on the same queue link); an active stage interpolates and fires the step
callback.  Returns the updated environment, the invoked callbacks in order,
and the surviving record, if any. -/
noncomputable def stepRecord (t_now : ℝ) :
    Env → Morph → List Morph → Env × List CbCall × Option MorphRec
  | env, m, rest =>
    if t_now ≥ m.t_end then
      let env1 := updVar env m.var m.end_value
      let calls : List CbCall :=
        match m.end_cb with
        | some cb => [⟨.finish, m.var, cb, m.data⟩]
        | none => []
      match rest with
      | [] => (env1, calls, none)
      | m2 :: rest2 =>
        let r := stepRecord t_now env1 m2 rest2
        (r.1, calls ++ r.2.1, r.2.2)
    else
      let percent := (t_now - m.t_start) / (m.t_end - m.t_start)
      let env1 := updVar env m.var
        (m.start_value + morphRemap m.type percent * (m.end_value - m.start_value))
      let calls : List CbCall :=
        match m.step_cb with
        | some cb => [⟨.step, m.var, cb, m.data⟩]
        | none => []
      (env1, calls, some ⟨m, rest⟩)

/-- morph_iteration (animation.c:239-317): update every morphing variable at
time `t_now`, returning the surviving queue, the new environment and the
invoked callbacks (in invocation order). -/
noncomputable def morph_iteration (t_now : ℝ) :
    List MorphRec → Env → List MorphRec × Env × List CbCall
  | [], env => ([], env, [])
  | rec :: rest, env =>
    let r := stepRecord t_now env rec.head rec.rest
    let r2 := morph_iteration t_now rest r.1
    (match r.2.2 with
     | some surv => surv :: r2.1
     | none => r2.1, r2.2.1, r.2.1 ++ r2.2.2)

/-! ### Scheduled events (src/animation.c) -/

/-- ScheduledEvent from animation.h: frames-remaining counter, callback
identifier, payload identifier. -/
structure SchEvent where
  nframes : ℤ
  event_cb : ℕ
  data : ℕ
deriving DecidableEq

/-- schedule_event (animation.c:60-76): prepend the new event to the queue
(G_LIST_PREPEND). -/
def schedule_event (q : List SchEvent) (event_cb data : ℕ) (nframes : ℤ) :
    List SchEvent :=
  ⟨nframes, event_cb, data⟩ :: q

/-- The behaviour of event callbacks, shallowly embedded: when callback `cb`
fires with payload `data`, `cbSched cb data` is the list of events it itself
passes to schedule_event, in call order. -/
def CbSched : Type := ℕ → ℕ → List SchEvent

/-- Walk of scheduled_event_iteration (animation.c:81-108) over the queue
links present when the tick starts.  Each event's counter is decremented;
an event whose counter drops to `≤ 0` fires and is removed.  Events that a
fired callback schedules are prepended ahead of the walk position, so they are
returned separately (`front`, in final queue order) and are never visited by
this tick.  Result: (newly prepended events, surviving decremented events,
fired (callback, payload) pairs in firing order). -/
def sei_go (cbSched : CbSched) :
    List SchEvent → List SchEvent × List SchEvent × List (ℕ × ℕ)
  | [] => ([], [], [])
  | e :: rest =>
    let r := sei_go cbSched rest
    if e.nframes - 1 ≤ 0 then
      (r.1 ++ (cbSched e.event_cb e.data).reverse, r.2.1,
       (e.event_cb, e.data) :: r.2.2)
    else
      (r.1, { e with nframes := e.nframes - 1 } :: r.2.1, r.2.2)

/-- scheduled_event_iteration (animation.c:81-108): one scheduler tick over
the event queue.  Returns the queue after the tick (newly scheduled events
sit at the head, exactly as successive G_LIST_PREPENDs leave them) and the
fired callbacks in order. -/
def scheduled_event_iteration (cbSched : CbSched) (q : List SchEvent) :
    List SchEvent × List (ℕ × ℕ) :=
  let r := sei_go cbSched q
  (r.1 ++ r.2.1, r.2.2)

/-- Run `k` scheduler ticks, accumulating the fired-callback log. -/
def runTicks (cbSched : CbSched) : ℕ → List SchEvent → List SchEvent × List (ℕ × ℕ)
  | 0, q => (q, [])
  | k + 1, q =>
    let r := scheduled_event_iteration cbSched q
    let r2 := runTicks cbSched k r.1
    (r2.1, r.2 ++ r2.2)

/-! ### Collapse/expand controller (src/colexp.c) -/

/-- Callback identifier standing for colexp_progress_cb (colexp.c:96-112),
which colexp installs as both the step and the end callback of each
deployment morph. -/
def colexp_progress_cb : ℕ := 1

/-- collapsed_depth (colexp.c:48-63): the number of consecutive collapsed
(DIR_COLLAPSED: deployment < EPSILON) directory levels above a directory.
`ancestors` lists the directory ancestors innermost-first; above the last
entry sits the non-directory metanode, where the C loop stops. -/
noncomputable def collapsed_depth (env : Env) : List ℕ → ℕ
  | [] => 0
  | a :: rest => if env a < EPSILON then 1 + collapsed_depth env rest else 0

/-- The per-level body and upward recursion of colexp (colexp.c:192-251)
for mesg = COLEXP_EXPAND_ANY: break any morph on the deployment variable,
emit a zero-motion LINEAR hold of wait_count * colexp_time frames when
wait_count = max_depth - depth > 0, chain the real MORPH_INV_QUADRATIC
expansion toward 1.0 (step and end callbacks both colexp_progress_cb, data
the directory itself), then recurse into the parent directory.  The
environment is only read (morphs write variables during iterations, not
here), and the geometry/camera notifications carry no morph-queue state. -/
noncomputable def colexp_expand_any_go (ct t_now : ℝ) (max_depth : ℕ) :
    ℕ → ℕ → List ℕ → List MorphRec → Env → List MorphRec
  | depth, dnode, ancestors, q, env =>
    let q1 := morph_break dnode q
    let wait_count : ℤ := (max_depth : ℤ) - (depth : ℤ)
    let q2 :=
      if 0 < wait_count then
        morph q1 env dnode .linear (env dnode) ((wait_count : ℝ) * ct) t_now
      else q1
    let q3 := morph_full q2 env dnode .invQuadratic 1.0 ct t_now
        (some colexp_progress_cb) (some colexp_progress_cb) dnode
    match ancestors with
    | [] => q3
    | p :: rest => colexp_expand_any_go ct t_now max_depth (depth + 1) p rest q3 env

/-- colexp (colexp.c:117-322) entered at depth 0 with mesg =
COLEXP_EXPAND_ANY: the directory-tree entry is expanded (which does not
affect any deployment value), max_depth is set to collapsed_depth, ct is the
per-mode colexp time, and the chain from the directory up through every
directory ancestor is processed.  The camera branch for EXPAND_ANY does
nothing (colexp.c:305-309). -/
noncomputable def colexp_expand_any (ct t_now : ℝ) (dnode : ℕ) (ancestors : List ℕ)
    (q : List MorphRec) (env : Env) : List MorphRec :=
  colexp_expand_any_go ct t_now (collapsed_depth env ancestors) 0 dnode ancestors q env

/-- The morph record colexp's EXPAND_ANY leaves on the deployment variable
`x` (current value `xval`) of the chain member at recursion depth `i`:
a hold stage of (max_depth - i) * ct when i < max_depth, then the real
expansion stage of duration ct toward 1. -/
noncomputable def colexpExpectedRec (ct t_now : ℝ) (max_depth : ℕ)
    (i : ℕ) (x : ℕ) (xval : ℝ) : MorphRec :=
  if i < max_depth then
    ⟨⟨.linear, x, xval, xval, t_now, t_now + (((max_depth : ℤ) - (i : ℤ) : ℤ) : ℝ) * ct,
       none, none, 0⟩,
     [⟨.invQuadratic, x, xval, 1.0,
       t_now + (((max_depth : ℤ) - (i : ℤ) : ℤ) : ℝ) * ct,
       (t_now + (((max_depth : ℤ) - (i : ℤ) : ℤ) : ℝ) * ct) + ct,
       some colexp_progress_cb, some colexp_progress_cb, x⟩]⟩
  else
    ⟨⟨.invQuadratic, x, xval, 1.0, t_now, t_now + ct,
       some colexp_progress_cb, some colexp_progress_cb, x⟩, []⟩

/-- The whole morph queue colexp's EXPAND_ANY builds while climbing the
chain from the requested directory (recursion depth `depth`) through its
ancestors: each level's record is prepended, so deeper-processed (outer)
levels sit closer to the queue head. -/
noncomputable def colexpExpectedList (ct t_now : ℝ) (max_depth : ℕ) (env : Env) :
    ℕ → List ℕ → List MorphRec
  | _, [] => []
  | depth, x :: rest =>
    colexpExpectedList ct t_now max_depth env (depth + 1) rest ++
      [colexpExpectedRec ct t_now max_depth depth x (env x)]

/-! ### Staged draw protocol (src/geometry.c) -/

/-- The two global drawing-stage counters fstree_low_draw_stage and
fstree_high_draw_stage (geometry.c:54-60). -/
structure DrawStages where
  low : ℕ
  high : ℕ
deriving DecidableEq, Repr

/-- The three per-directory staleness flags a_dlist_stale, b_dlist_stale,
c_dlist_stale (common.h:238-240). -/
structure DlistFlags where
  a_dlist_stale : Bool
  b_dlist_stale : Bool
  c_dlist_stale : Bool
deriving DecidableEq, Repr

/-- queue_uncached_draw (geometry.c:2694-2699): zero both stage counters. -/
def queue_uncached_draw (_s : DrawStages) : DrawStages :=
  ⟨0, 0⟩

/-- geometry_queue_rebuild (geometry.c:2703-2711) acting on the affected
directory's flags paired with the global stage counters. -/
def geometry_queue_rebuild (fs : DlistFlags × DrawStages) : DlistFlags × DrawStages :=
  (⟨true, true, true⟩, queue_uncached_draw fs.2)

/-- What one mapv_draw call did with the tree geometry: a full recursive
draw, a capture of the whole tree into the aggregate display list, or a
replay of that list, for low- and high-detail geometry respectively. -/
structure DrawActions where
  lowRecursive : Bool
  lowCapture : Bool
  lowReplay : Bool
  highRecursive : Bool
  highCapture : Bool
  highReplay : Bool
deriving DecidableEq, Repr

/-- mapv_draw (geometry.c:1152-1202) as a step of the drawing-stage state
machine: at stage <= 1 the full recursive draw runs (additionally captured
into the aggregate display list at stage exactly 1) and the stage counter is
incremented; at stage >= 2 only the display list is replayed.  The
high-detail block runs only when high_detail is set. -/
def mapv_draw (high_detail : Bool) (s : DrawStages) : DrawStages × DrawActions :=
  let act1 : DrawActions :=
    { lowRecursive := decide (s.low ≤ 1), lowCapture := decide (s.low = 1)
    , lowReplay := decide (¬ s.low ≤ 1)
    , highRecursive := false, highCapture := false, highReplay := false }
  let s1 : DrawStages := if s.low ≤ 1 then { s with low := s.low + 1 } else s
  if high_detail then
    let act2 : DrawActions :=
      { act1 with highRecursive := decide (s1.high ≤ 1)
                , highCapture := decide (s1.high = 1)
                , highReplay := decide (¬ s1.high ≤ 1) }
    let s2 : DrawStages := if s1.high ≤ 1 then { s1 with high := s1.high + 1 } else s1
    (s2, act2)
  else
    (s1, act1)

/-- Iterated draws: the stage counters after n further mapv_draw calls. -/
def drawNth (high_detail : Bool) (s : DrawStages) : ℕ → DrawStages
  | 0 => s
  | n + 1 => (mapv_draw high_detail (drawNth high_detail s n)).1

/-! ### Per-mode layout initialization: state effects (src/geometry.c) -/

/-- A filesystem tree node, restricted to what the layout initializers'
state effects depend on: directories carry an identifier (standing for the
DirNodeDesc address), the dirtree_entry_expanded answer for their
directory-tree entry, and their children.  `meta` is the root metanode.
Scalar attributes (sizes, names, colors) feed only the geometric outputs,
which are modelled separately (`mapv_layout`, `treev_reshape_platform`);
in particular the size-sorted traversal order of discv_init_recursive
(discv_node_compare, geometry.c:111-130) only permutes the per-directory
state updates, so children are visited here in tree order. -/
inductive FsNode where
  | dir (id : ℕ) (expanded : Bool) (children : List FsNode)
  | leaf
  | meta (id : ℕ) (children : List FsNode)

mutual

/-- The (id, expanded) pairs of all directories of a tree, in preorder. -/
def dirList : FsNode → List (ℕ × Bool)
  | .dir id e children => (id, e) :: dirListChildren children
  | .meta _ children => dirListChildren children
  | .leaf => []

/-- The (id, expanded) pairs of all directories of a forest. -/
def dirListChildren : List FsNode → List (ℕ × Bool)
  | [] => []
  | n :: rest => dirList n ++ dirListChildren rest

end

/-- The state the layout initializers act on: the morph queue, the
deployment variables (environment keyed by directory identifier), the
per-directory staleness flags, and the global draw stages. -/
structure GeomState where
  morph_queue : List MorphRec
  env : Env
  stale : ℕ → DlistFlags
  stages : DrawStages

/-- geometry_queue_rebuild (geometry.c:2703-2711) on the full state, keyed
by the directory identifier. -/
def geometry_queue_rebuildAt (id : ℕ) (s : GeomState) : GeomState :=
  { s with stale := fun u => if u = id then ⟨true, true, true⟩ else s.stale u
         , stages := queue_uncached_draw s.stages }

/-- The identical per-directory head of discv_init_recursive
(geometry.c:150-157), mapv_init_recursive (geometry.c:585-592) and
treev_init_recursive (geometry.c:1622-1629): cancel any deployment morph,
snap deployment to 1.0 or 0.0 according to dirtree_entry_expanded, and
queue a cache rebuild. -/
noncomputable def dir_deploy_reset (id : ℕ) (expanded : Bool) (s : GeomState) : GeomState :=
  geometry_queue_rebuildAt id
    { s with morph_queue := morph_break id s.morph_queue
           , env := updVar s.env id (if expanded then 1.0 else 0.0) }

/-- Sequential application of `dir_deploy_reset` over a list of
directories. -/
noncomputable def dirUpdates : List (ℕ × Bool) → GeomState → GeomState
  | [], s => s
  | (i, e) :: rest, s => dirUpdates rest (dir_deploy_reset i e s)

mutual

/-- State effects of discv_init_recursive (geometry.c:134-237): reset the
directory's deployment state, then recurse into every directory child (the
sorted placement loop recurses into exactly the directory children). -/
noncomputable def discv_init_recursive : FsNode → GeomState → GeomState
  | .dir id expanded children, s =>
    discv_init_children children (dir_deploy_reset id expanded s)
  | .meta _ children, s => discv_init_children children s
  | .leaf, s => s

noncomputable def discv_init_children : List FsNode → GeomState → GeomState
  | [], s => s
  | n :: rest, s =>
    discv_init_children rest
      (match n with
       | .dir _ _ _ => discv_init_recursive n s
       | _ => s)

end

mutual

/-- State effects of mapv_init_recursive (geometry.c:562-756): reset the
directory's deployment state, then (in the fourth, output pass) recurse into
every directory block, i.e. every directory child. -/
noncomputable def mapv_init_recursive : FsNode → GeomState → GeomState
  | .dir id expanded children, s =>
    mapv_init_children children (dir_deploy_reset id expanded s)
  | .meta _ _, s => s
  | .leaf, s => s

noncomputable def mapv_init_children : List FsNode → GeomState → GeomState
  | [], s => s
  | n :: rest, s =>
    mapv_init_children rest
      (match n with
       | .dir _ _ _ => mapv_init_recursive n s
       | _ => s)

end

mutual

/-- State effects of treev_init_recursive (geometry.c:1614-1645): reset the
directory's deployment state when the node is a directory (the metanode is
skipped), then walk all children, recursing into the directories. -/
noncomputable def treev_init_recursive : FsNode → GeomState → GeomState
  | .dir id expanded children, s =>
    treev_init_children children (dir_deploy_reset id expanded s)
  | .meta _ children, s => treev_init_children children s
  | .leaf, s => s

noncomputable def treev_init_children : List FsNode → GeomState → GeomState
  | [], s => s
  | n :: rest, s =>
    treev_init_children rest
      (match n with
       | .dir _ _ _ => treev_init_recursive n s
       | _ => s)

end

/-- The three visualization modes geometry_init dispatches on
(common.h FsvMode; FSV_SPLASH and FSV_NONE never reach geometry_init,
whose switch would assert). -/
inductive FsvMode where
  | discv
  | mapv
  | treev
deriving DecidableEq, Repr

/-- The identifier of the root node handed to geometry_init. -/
def FsNode.nid : FsNode → ℕ
  | .dir id _ _ => id
  | .meta id _ => id
  | .leaf => 0

/-- geometry_init (geometry.c:2715-2744): force the metanode's deployment
to 1.0, queue a rebuild of it, then run the per-mode initializer.
discv_init (geometry.c:240-256) and treev_init (geometry.c:1649-1686) start
the recursion at the metanode itself; mapv_init (geometry.c:760-793) starts
it at root_dnode, the metanode's first child.  treev_init additionally runs
treev_arrange, whose only cache effects are further geometry_queue_rebuild
calls on directories whose flags the recursion already set. -/
noncomputable def geometry_init (mode : FsvMode) (fstree : FsNode) (s : GeomState) :
    GeomState :=
  let s1 := geometry_queue_rebuildAt fstree.nid
    { s with env := updVar s.env fstree.nid 1.0 }
  match mode with
  | .discv => discv_init_recursive fstree s1
  | .mapv =>
    match fstree with
    | .meta _ (root :: _) => mapv_init_recursive root s1
    | _ => s1
  | .treev => treev_init_recursive fstree s1

/-! ### MapV block layout (src/geometry.c, mapv_init_recursive) -/

/-- A 2D point/vector (common.h XYvec). -/
structure XY where
  x : ℝ
  y : ℝ

/-- What mapv_init_recursive reads of a child node: whether it is a
directory, its byte size, and (for directories) its subtree byte total. -/
structure MapVChild where
  isDir : Bool
  size : ℤ
  subtreeSize : ℤ

/-- The effective size of a child block (geometry.c:625-627 and 705-707):
`MAX(256, size)`, plus the subtree size for directories. -/
def mapv_node_size (c : MapVChild) : ℤ :=
  max 256 c.size + (if c.isDir then c.subtreeSize else 0)

/-- The geometry mapv_init_recursive assigns to one child: the two corners
of the visible footprint (gparams->c0, gparams->c1) and the node height. -/
structure MapVBlockOut where
  c0 : XY
  c1 : XY
  height : ℝ

/-- Pass 2 of mapv_init_recursive (geometry.c:644-674): group the scaled
blocks (carried here together with their child) into rows.  A row
accumulates blocks until the block just added would be deeper than wide
(aspect ratio below 1), whereupon the *next* block starts a new row. -/
noncomputable def mapv_rows_go (dirx : ℝ) :
    List (ℝ × MapVChild) → List (ℝ × MapVChild) → ℝ → List (List (ℝ × MapVChild))
  | [], cur, _ => if cur.isEmpty then [] else [cur.reverse]
  | b :: rest, cur, curArea =>
    let rowArea := curArea + b.1
    let ydim := rowArea / dirx
    let xdim := b.1 / ydim
    if xdim / ydim < 1.0 then
      (cur.reverse ++ [b]) :: mapv_rows_go dirx rest [] 0
    else
      mapv_rows_go dirx rest (b :: cur) rowArea

noncomputable def mapv_rows (dirx : ℝ) (blocks : List (ℝ × MapVChild)) :
    List (List (ℝ × MapVChild)) :=
  mapv_rows_go dirx blocks [] 0

/-- Inner loop of pass 4 (geometry.c:698-735): lay one row out right to
left from `pos`, solving each block's exact border width from the quadratic
balancing area-with-border against area-without-border
(geometry.c:710-714), and assigning the corner geometry
(geometry.c:716-722) and the node height (geometry.c:724-731). -/
noncomputable def mapv_output_row (sf ydim : ℝ) :
    List (ℝ × MapVChild) → XY → List MapVBlockOut
  | [], _ => []
  | (a, c) :: rest, pos =>
    let xdim := a / ydim
    let area := sf * ((mapv_node_size c : ℤ) : ℝ)
    let k := xdim + ydim
    let border := 0.25 * (k - Real.sqrt (k * k - 4.0 * (a - area)))
    ⟨⟨pos.x - xdim + border, pos.y - ydim + border⟩,
     ⟨pos.x - border, pos.y - border⟩,
     if c.isDir then 384.0 else 128.0⟩ ::
      mapv_output_row sf ydim rest ⟨pos.x - xdim, pos.y⟩

/-- Outer loop of pass 4 (geometry.c:687-739): lay the rows out rear to
front starting at the right/rear corner. -/
noncomputable def mapv_output_rows (sf dirx startx : ℝ) :
    List (List (ℝ × MapVChild)) → ℝ → List MapVBlockOut
  | [], _ => []
  | row :: rest, posy =>
    let ydim := (row.map Prod.fst).sum / dirx
    mapv_output_row sf ydim row ⟨startx, posy⟩ ++
      mapv_output_rows sf dirx startx rest (posy - ydim)

/-- The quantities mapv_init_recursive derives from the directory before
laying blocks down (geometry.c:599-642): the trimmed top-face dimensions
(the side slant ratio for directories is 0.032, geometry.c:490-492), the
nominal border (MAPV_BORDER_PROPORTION = 0.01, geometry.c:478), the
half-border-trimmed extents, and the scale factor mapping block areas onto
the directory's available area. -/
structure MapVSetup where
  dirx : ℝ
  diry : ℝ
  nb : ℝ
  sf : ℝ

noncomputable def mapv_setup (w d h : ℝ) (children : List MapVChild) : MapVSetup :=
  let x0 := w - 2.0 * min h (0.032 * w)
  let y0 := d - 2.0 * min h (0.032 * d)
  let a := 0.01 * Real.sqrt (x0 * y0)
  let b := min x0 y0 / 3.0
  let nb := min a b
  let dirx := x0 - nb
  let diry := y0 - nb
  let total := (children.map
    (fun c => (Real.sqrt ((mapv_node_size c : ℤ) : ℝ) + nb) ^ 2)).sum
  ⟨dirx, diry, nb, dirx * diry / total⟩

/-- mapv_init_recursive (geometry.c:562-756), geometric output for one
directory of top-face width `w`, depth `d`, height `h` and center
(`cx`, `cy`): the list of children's block geometries, in child order.
The first pass builds one block per child of area (sqrt(size) + border)^2
(geometry.c:623-638); the second pass scales them and partitions them into
rows; the fourth pass emits the final corner geometry. -/
noncomputable def mapv_layout (w d h cx cy : ℝ) (children : List MapVChild) :
    List MapVBlockOut :=
  let st := mapv_setup w d h children
  let scaled := children.map (fun c =>
    (st.sf * (Real.sqrt ((mapv_node_size c : ℤ) : ℝ) + st.nb) ^ 2, c))
  let rows := mapv_rows st.dirx scaled
  mapv_output_rows st.sf st.dirx (cx + 0.5 * st.dirx) rows (cy + 0.5 * st.diry)

/-! ### TreeV platform reshaping (src/geometry.c, treev_reshape_platform) -/

/-- TREEV_LEAF_NODE_EDGE (geometry.h:31). -/
noncomputable def TREEV_LEAF_NODE_EDGE : ℝ := 256.0

/-- TREEV_PLATFORM_SPACING_WIDTH (geometry.c:1216). -/
noncomputable def TREEV_PLATFORM_SPACING_WIDTH : ℝ := 512.0

/-- TREEV_MIN_CORE_RADIUS (geometry.c:1212). -/
noncomputable def TREEV_MIN_CORE_RADIUS : ℝ := 8192.0

/-- C's atan2(y, x): the argument of the complex number x + y*i. -/
noncomputable def atan2 (y x : ℝ) : ℝ :=
  Complex.arg ⟨x, y⟩

/-- C's cbrt: the real cube root. -/
noncomputable def cbrt (x : ℝ) : ℝ :=
  if 0 ≤ x then x ^ ((1 : ℝ) / 3) else -((-x) ^ ((1 : ℝ) / 3))

/-- C's hypot. -/
noncomputable def hypot (x y : ℝ) : ℝ :=
  Real.sqrt (x * x + y * y)

/-- Truncation toward zero, as C's cast/trunc semantics. -/
noncomputable def rtrunc (z : ℝ) : ℤ :=
  if 0 ≤ z then ⌊z⌋ else ⌈z⌉

/-- C's fmod(x, m) = x - trunc(x/m)*m. -/
noncomputable def fmod (x m : ℝ) : ℝ :=
  x - m * ((rtrunc (x / m) : ℤ) : ℝ)

/-- Estimated platform area from the number n of immediate children
(geometry.c:1456-1459): SQR(edge15 * ceil(sqrt(MAX(1, n))) + edge05). -/
noncomputable def treev_area (n : ℕ) : ℝ :=
  let k := (1.5 * TREEV_LEAF_NODE_EDGE) *
      ((⌈Real.sqrt ((max 1 n : ℕ) : ℝ)⌉ : ℤ) : ℝ) + 0.5 * TREEV_LEAF_NODE_EDGE
  k * k

/-- ka (geometry.c:1480), with A the estimated area, r the inner radius and
w = TREEV_PLATFORM_SPACING_WIDTH. -/
noncomputable def treev_ka (A r : ℝ) : ℝ :=
  let w := TREEV_PLATFORM_SPACING_WIDTH
  72.0 * (A * r - w * (A + r)) - 64.0 * (r * r * r) + 48.0 * (r * r) * w
    - 36.0 * (w * w) + 24.0 * r * (w * w) - 8.0 * (w * w * w)

/-- The radicand T1 + T2 + T3 + T4 under kb's square root
(geometry.c:1481-1485). -/
noncomputable def treev_disc (A r : ℝ) : ℝ :=
  let w := TREEV_PLATFORM_SPACING_WIDTH
  let w_2 := w * w
  let w_3 := w * w * w
  let w_4 := (w * w) * (w * w)
  let A_2 := A * A
  let A_3 := A * A_2
  let r_2 := r * r
  let r_3 := r * r_2
  let r_4 := r_2 * r_2
  (72.0 * A * w_2 - 132.0 * A * r * w_2 - 240.0 * A * w * r_3
      + 120.0 * A * w_2 * r_2 - 24.0 * A_2 * w * r - 60.0 * w_3 * r)
    + 12.0 * (w_2 * r_2 + A_2 * w_2 - w_4 * r + w_4 * r_2 + A * w_3 + w_3)
    + (48.0 * (w_2 * r_4 - w_2 * r_3 - w_3 * r_3) + 96.0 * (A_3 + w_3 * r_2))
    + (192.0 * A * r_4 + 156.0 * A_2 * r_2 + 3.0 * w_4 + 144.0 * A_2 * w
        + 264.0 * A * w * r_2)

/-- kb (geometry.c:1485). -/
noncomputable def treev_kb (A r : ℝ) : ℝ :=
  12.0 * Real.sqrt (treev_disc A r)

/-- kc (geometry.c:1490). -/
noncomputable def treev_kc (A r : ℝ) : ℝ :=
  Real.cos (atan2 (treev_kb A r) (treev_ka A r) / 3.0)

/-- kd (geometry.c:1491). -/
noncomputable def treev_kd (A r : ℝ) : ℝ :=
  cbrt (hypot (treev_ka A r) (treev_kb A r))

/-- The depth d solved from the cubic by Cardano's trigonometric method
(geometry.c:1493). -/
noncomputable def treev_d (A r : ℝ) : ℝ :=
  let w := TREEV_PLATFORM_SPACING_WIDTH
  (-w - 2.0 * r) / 3.0
    + ((8.0 * (r * r) - 4.0 * w * r + 2.0 * (w * w)) / 3.0 + 4.0 * A + 2.0 * w)
        * treev_kc A r / treev_kd A r
    + treev_kc A r * treev_kd A r / 6.0

/-- theta (geometry.c:1494): arc width from the square-aspect relation. -/
noncomputable def treev_theta (A r : ℝ) : ℝ :=
  let w := TREEV_PLATFORM_SPACING_WIDTH
  180.0 * (treev_d A r + w) / (Real.pi * (r + treev_d A r))

/-- The depth adjusted upward to an integral number of leaf rows
(geometry.c:1500). -/
noncomputable def treev_depth_rounded (A r : ℝ) : ℝ :=
  let edge05 := 0.5 * TREEV_LEAF_NODE_EDGE
  let edge15 := 1.5 * TREEV_LEAF_NODE_EDGE
  treev_d A r + ((edge15 - fmod (treev_d A r - edge05) edge15) + edge05)

/-- The depressed-cubic coefficient p of the platform cubic
d^3 + (2r+w)d^2 + (2wr - 2A - w)d - 2Ar (geometry.c:1469): substituting
d = t - (2r+w)/3 gives t^3 + p t + q. -/
noncomputable def treev_p (A r : ℝ) : ℝ :=
  let w := TREEV_PLATFORM_SPACING_WIDTH
  (2.0 * w * r - 2.0 * A - w) - (2.0 * r + w) ^ 2 / 3

/-- The depressed-cubic constant q of the platform cubic. -/
noncomputable def treev_q (A r : ℝ) : ℝ :=
  let w := TREEV_PLATFORM_SPACING_WIDTH
  2.0 * (2.0 * r + w) ^ 3 / 27 - (2.0 * r + w) * (2.0 * w * r - 2.0 * A - w) / 3
    - 2.0 * A * r

/-- min_arc_width (geometry.c:1504): the arc width whose inner edge is two
leaf node edges plus the spacing width. -/
noncomputable def treev_min_arc_width (r0 : ℝ) : ℝ :=
  (180.0 * (2.0 * TREEV_LEAF_NODE_EDGE + TREEV_PLATFORM_SPACING_WIDTH) / Real.pi) / r0

/-- treev_reshape_platform (geometry.c:1441-1514): the (depth, arc_width)
assigned to a directory platform with n immediate children at inner radius
r0 (geometry.c:1506-1507). -/
noncomputable def treev_reshape_platform (n : ℕ) (r0 : ℝ) : ℝ × ℝ :=
  (treev_depth_rounded (treev_area n) r0,
   max (treev_min_arc_width r0) (treev_theta (treev_area n) r0))

/-! ### Remaining definitions used by the theorems -/

/-- Event callbacks that schedule no further events. -/
def noSched : CbSched := fun _ _ => []

/-- The full morph-scheduler state: the queue, the morphed variables, and
the log of callbacks invoked so far.  morph/morph_full read the environment
(for the start value) and write only the queue; morph_finish and morph_break
write only the queue; morph_iteration writes variables and invokes
callbacks. -/
structure AnimState where
  morph_queue : List MorphRec
  env : Env
  calls : List CbCall

/-- morph_full on the full state. -/
noncomputable def morph_fullS (v : ℕ) (ty : MorphType) (tgt dur t0 : ℝ)
    (scb ecb : Option ℕ) (data : ℕ) (s : AnimState) : AnimState :=
  { s with morph_queue := morph_full s.morph_queue s.env v ty tgt dur t0 scb ecb data }

/-- morph on the full state. -/
noncomputable def morphS (v : ℕ) (ty : MorphType) (tgt dur t0 : ℝ)
    (s : AnimState) : AnimState :=
  { s with morph_queue := morph s.morph_queue s.env v ty tgt dur t0 }

/-- morph_finish on the full state: only the queue changes. -/
def morph_finishS (v : ℕ) (s : AnimState) : AnimState :=
  { s with morph_queue := morph_finish v s.morph_queue }

/-- morph_break on the full state: only the queue changes. -/
def morph_breakS (v : ℕ) (s : AnimState) : AnimState :=
  { s with morph_queue := morph_break v s.morph_queue }

/-- morph_iteration on the full state. -/
noncomputable def morph_iterationS (t_now : ℝ) (s : AnimState) : AnimState :=
  let r := morph_iteration t_now s.morph_queue s.env
  ⟨r.1, r.2.1, s.calls ++ r.2.2⟩

/-- The visible footprint area of a laid-out MapV block. -/
noncomputable def MapVBlockOut.visArea (out : MapVBlockOut) : ℝ :=
  (out.c1.x - out.c0.x) * (out.c1.y - out.c0.y)

/-- A zero block, used only as a List.getD default. -/
noncomputable def mapvZeroBlock : MapVBlockOut :=
  ⟨⟨0, 0⟩, ⟨0, 0⟩, 0⟩

/-- The per-block correctness property of the MapV layout at scale factor
sf: the visible footprint (corner-to-corner extents) is exactly the scaled
node area sf * (max(256, size) (+ subtree size for directories)), and both
visible extents are positive. -/
noncomputable def mapv_block_ok (sf : ℝ) (out : MapVBlockOut) (c : MapVChild) : Prop :=
  (out.c1.x - out.c0.x) * (out.c1.y - out.c0.y) =
      sf * ((mapv_node_size c : ℤ) : ℝ) ∧
  0 < out.c1.x - out.c0.x ∧ 0 < out.c1.y - out.c0.y

mutual

/-- Trees as they occur below fsv's root metanode: directories and leaves
only (the metanode exists solely at the top of globals.fstree). -/
def FsNode.wf : FsNode → Bool
  | .dir _ _ children => FsNode.wfList children
  | .leaf => true
  | .meta _ _ => false

def FsNode.wfList : List FsNode → Bool
  | [] => true
  | n :: rest => FsNode.wf n && FsNode.wfList rest

end

/-! ## Theorems -/

/-! ### Scheduled-event lemmas -/

theorem sei_go_spec (cbSched : CbSched) (q : List SchEvent) :
    sei_go cbSched q =
      (((q.filter (fun e => decide (e.nframes ≤ 1))).map
          (fun e => cbSched e.event_cb e.data)).flatten.reverse,
       (q.filter (fun e => decide (1 < e.nframes))).map
          (fun e => { e with nframes := e.nframes - 1 }),
       (q.filter (fun e => decide (e.nframes ≤ 1))).map
          (fun e => (e.event_cb, e.data))) := by
  induction q with
  | nil => simp [sei_go]
  | cons e rest ih =>
    by_cases h : e.nframes ≤ 1
    · have h' : e.nframes - 1 ≤ 0 := by omega
      have h2 : ¬ 1 < e.nframes := by omega
      simp [sei_go, ih, h, h', h2]
    · have h' : ¬ e.nframes - 1 ≤ 0 := by omega
      have h2 : 1 < e.nframes := by omega
      simp [sei_go, ih, h, h', h2]

/-- C10: One scheduler tick fires exactly the callbacks of events that were
already in the queue when the tick started (those whose decremented counter
reaches zero or below); every event scheduled from inside a fired callback
during the tick survives the tick at the head of the queue with its
frames-remaining counter untouched — it is neither decremented nor fired
within that tick, so a nested-scheduled callback can fire at the earliest
one full tick after the callback that scheduled it. -/
theorem nested_scheduled_events_wait_a_tick (cbSched : CbSched) (q : List SchEvent) :
    (scheduled_event_iteration cbSched q).2 =
      (q.filter (fun e => decide (e.nframes ≤ 1))).map
        (fun e => (e.event_cb, e.data)) ∧
    (scheduled_event_iteration cbSched q).1 =
      ((q.filter (fun e => decide (e.nframes ≤ 1))).map
          (fun e => cbSched e.event_cb e.data)).flatten.reverse ++
        (q.filter (fun e => decide (1 < e.nframes))).map
          (fun e => { e with nframes := e.nframes - 1 }) := by
  unfold scheduled_event_iteration
  rw [sei_go_spec]
  exact ⟨rfl, rfl⟩

theorem runTicks_nil : ∀ k, runTicks noSched k [] = ([], []) := by
  intro k
  induction k with
  | zero => rfl
  | succ k ih =>
    simp [runTicks, scheduled_event_iteration, sei_go, ih]

theorem one_tick_step (cb d : ℕ) (n : ℤ) :
    scheduled_event_iteration noSched (schedule_event [] cb d n) =
      (if n ≤ 1 then ([], [(cb, d)]) else ([⟨n - 1, cb, d⟩], [])) := by
  by_cases h : n - 1 ≤ 0
  · have h2 : n ≤ 1 := by omega
    simp [scheduled_event_iteration, sei_go, schedule_event, h, h2, noSched]
  · have h2 : ¬ n ≤ 1 := by omega
    simp [scheduled_event_iteration, sei_go, schedule_event, h, h2, noSched]

/-- C4 (amended): an event scheduled with n ≥ 1 frames-to-go fires after
exactly n subsequent scheduler ticks, no earlier and no later: for every
tick count k the fired log stays empty while k < n (the event surviving with
its counter decremented k times), and holds exactly the one invocation once
k ≥ n, the event having been removed. -/
theorem schedule_event_fires_after_exactly_n (cb d : ℕ) (n : ℤ) (hn : 1 ≤ n)
    (k : ℕ) :
    (runTicks noSched k (schedule_event [] cb d n)).2 =
        (if n ≤ (k : ℤ) then [(cb, d)] else []) ∧
    (runTicks noSched k (schedule_event [] cb d n)).1 =
        (if n ≤ (k : ℤ) then [] else [⟨n - (k : ℤ), cb, d⟩]) := by
  induction k generalizing n with
  | zero =>
    have h : ¬ n ≤ (0 : ℤ) := by omega
    simp [runTicks, schedule_event, h]
  | succ k ih =>
    by_cases h1 : n ≤ 1
    · have hn1 : n = 1 := by omega
      subst hn1
      have hcond : (1 : ℤ) ≤ ((k + 1 : ℕ) : ℤ) := by push_cast; omega
      simp only [runTicks, one_tick_step, if_pos (le_refl (1 : ℤ)), runTicks_nil,
        if_pos hcond]
      simp
    · have ih2 := ih (n - 1) (by omega)
      simp only [runTicks, one_tick_step, if_neg h1, List.nil_append]
      have hq : ([⟨n - 1, cb, d⟩] : List SchEvent) = schedule_event [] cb d (n - 1) :=
        rfl
      rw [hq, ih2.1, ih2.2]
      by_cases h2 : n ≤ ((k + 1 : ℕ) : ℤ)
      · have h2a : n ≤ (k : ℤ) + 1 := by push_cast at h2; exact h2
        have h3 : n - 1 ≤ (k : ℤ) := by omega
        simp [h2a, h3]
      · have h2a : ¬ n ≤ (k : ℤ) + 1 := by push_cast at h2; exact h2
        have h3 : ¬ n - 1 ≤ (k : ℤ) := by omega
        have h4 : n - 1 - (k : ℤ) = n - ((k + 1 : ℕ) : ℤ) := by push_cast; ring
        refine ⟨?_, ?_⟩
        · simp [h4, h2a, h3]
        · simp [h4, h2a, h3]

theorem schedule_event_fires_after_exactly_n_witness :
    (1 : ℤ) ≤ 3 ∧
    ((runTicks noSched 3 (schedule_event [] 5 9 3)).2 =
        (if (3 : ℤ) ≤ ((3 : ℕ) : ℤ) then [(5, 9)] else []) ∧
     (runTicks noSched 3 (schedule_event [] 5 9 3)).1 =
        (if (3 : ℤ) ≤ ((3 : ℕ) : ℤ) then [] else [⟨3 - ((3 : ℕ) : ℤ), 5, 9⟩])) :=
  ⟨by norm_num, schedule_event_fires_after_exactly_n 5 9 3 (by norm_num) 3⟩

/-- C4 counterexample: with n_frames = 0 the callback does not fire after
exactly 0 subsequent ticks (the fired log after zero ticks is empty); it
fires only on the first tick, whereupon its counter has reached -1, not 0. -/
theorem schedule_event_zero_frames_cex :
    (runTicks noSched 0 (schedule_event [] 5 9 0)).2 = [] ∧
    (runTicks noSched 1 (schedule_event [] 5 9 0)).2 = [(5, 9)] ∧
    (0 : ℤ) - 1 ≠ 0 := by
  refine ⟨rfl, rfl, by decide⟩

/-! ### Morph-queue lemmas -/

theorem appendStage_eq_none (new : Morph) (dur : ℝ) (q : List MorphRec)
    (h : ∀ r ∈ q, r.head.var ≠ new.var) :
    appendStage new dur q = none := by
  induction q with
  | nil => rfl
  | cons rec rest ih =>
    have h1 : rec.head.var ≠ new.var := h rec (by simp)
    simp [appendStage, h1, ih (fun r hr => h r (by simp [hr]))]

theorem morph_full_fresh (q : List MorphRec) (env : Env) (v : ℕ) (ty : MorphType)
    (tgt dur t0 : ℝ) (scb ecb : Option ℕ) (data : ℕ)
    (h : ∀ r ∈ q, r.head.var ≠ v) :
    morph_full q env v ty tgt dur t0 scb ecb data =
      ⟨⟨ty, v, env v, tgt, t0, t0 + dur, scb, ecb, data⟩, []⟩ :: q := by
  simp only [morph_full]
  rw [appendStage_eq_none _ _ _ h]

theorem morph_break_of_not_mem (v : ℕ) (q : List MorphRec)
    (h : ∀ r ∈ q, r.head.var ≠ v) :
    morph_break v q = q := by
  induction q with
  | nil => rfl
  | cons rec rest ih =>
    have h1 : rec.head.var ≠ v := h rec (by simp)
    simp [morph_break, h1, ih (fun r hr => h r (by simp [hr]))]

theorem morph_finish_of_not_mem (v : ℕ) (q : List MorphRec)
    (h : ∀ r ∈ q, r.head.var ≠ v) :
    morph_finish v q = q := by
  induction q with
  | nil => rfl
  | cons rec rest ih =>
    have h1 : rec.head.var ≠ v := h rec (by simp)
    simp [morph_finish, h1, ih (fun r hr => h r (by simp [hr]))]

theorem morph_break_sublist (v : ℕ) (q : List MorphRec) :
    (morph_break v q).Sublist q := by
  induction q with
  | nil => simp [morph_break]
  | cons rec rest ih =>
    by_cases h : rec.head.var = v
    · simp only [morph_break, if_pos h]
      exact (List.sublist_cons_self rec rest)
    · simp only [morph_break, if_neg h]
      exact ih.cons₂ rec

theorem morph_break_no_var (v : ℕ) (q : List MorphRec)
    (h : (q.map (fun r => r.head.var)).Nodup) :
    ∀ r ∈ morph_break v q, r.head.var ≠ v := by
  induction q with
  | nil => simp [morph_break]
  | cons rec rest ih =>
    simp only [List.map_cons, List.nodup_cons] at h
    by_cases hv : rec.head.var = v
    · intro r hr
      have hmem : r.head.var ∈ rest.map (fun r => r.head.var) :=
        List.mem_map_of_mem _ (by simpa [morph_break, if_pos hv] using hr)
      intro hc
      exact h.1 (by rw [← hv] at hc; rw [← hc]; exact hmem)
    · intro r hr
      rw [morph_break, if_neg hv] at hr
      rcases List.mem_cons.mp hr with h1 | h1
      · rw [h1]; exact hv
      · exact ih h.2 r h1

theorem morph_break_split (v : ℕ) (pre post : List MorphRec) (rec : MorphRec)
    (hpre : ∀ r ∈ pre, r.head.var ≠ v) (hv : rec.head.var = v) :
    morph_break v (pre ++ rec :: post) = pre ++ post := by
  induction pre with
  | nil => simp [morph_break, hv]
  | cons p ps ih =>
    have h1 : p.head.var ≠ v := hpre p (by simp)
    have hstep : morph_break v ((p :: ps) ++ rec :: post) =
        p :: morph_break v (ps ++ rec :: post) := by
      simp [morph_break, h1]
    rw [hstep, ih (fun r hr => hpre r (by simp [hr]))]
    rfl

theorem appendStage_split (new : Morph) (dur : ℝ) (pre post : List MorphRec)
    (rec : MorphRec)
    (hpre : ∀ r ∈ pre, r.head.var ≠ new.var) (hv : rec.head.var = new.var) :
    appendStage new dur (pre ++ rec :: post) =
      some (pre ++ ⟨rec.head, rec.rest ++
        [{ new with t_start := (last_morph_stage rec.head rec.rest).t_end
                  , t_end := (last_morph_stage rec.head rec.rest).t_end + dur
                  , start_value := (last_morph_stage rec.head rec.rest).end_value }]⟩
        :: post) := by
  induction pre with
  | nil => simp [appendStage, hv, last_morph_stage]
  | cons p ps ih =>
    have h1 : p.head.var ≠ new.var := hpre p (by simp)
    have hstep : appendStage new dur ((p :: ps) ++ rec :: post) =
        (appendStage new dur (ps ++ rec :: post)).map (p :: ·) := by
      simp [appendStage, h1]
    rw [hstep, ih (fun r hr => hpre r (by simp [hr]))]
    rfl

/-- C2: requesting a morph on a variable already undergoing morphing does
not overwrite or interrupt the incumbent record: the existing stages are
kept verbatim and one new stage is appended, whose start time is the last
incumbent stage's end time, whose end time is that plus the new duration,
and whose start value is the last incumbent stage's end value — the chained
animation is continuous. -/
theorem morph_full_appends_continuous_stage
    (pre post : List MorphRec) (rec : MorphRec) (env : Env) (v : ℕ)
    (ty : MorphType) (tgt dur t0 : ℝ) (scb ecb : Option ℕ) (data : ℕ)
    (hpre : ∀ r ∈ pre, r.head.var ≠ v) (hv : rec.head.var = v) :
    morph_full (pre ++ rec :: post) env v ty tgt dur t0 scb ecb data =
      pre ++ ⟨rec.head, rec.rest ++
        [⟨ty, v, (last_morph_stage rec.head rec.rest).end_value, tgt,
          (last_morph_stage rec.head rec.rest).t_end,
          (last_morph_stage rec.head rec.rest).t_end + dur, scb, ecb, data⟩]⟩
        :: post := by
  simp only [morph_full]
  rw [appendStage_split ⟨ty, v, env v, tgt, t0, t0 + dur, scb, ecb, data⟩ dur
    pre post rec hpre hv]

theorem morph_full_appends_continuous_stage_witness :
    morph_full ([] ++ (⟨⟨.linear, 3, 0, 7, 0, 2, none, none, 0⟩, []⟩ : MorphRec)
        :: []) (fun _ => 0) 3 .sigmoid 9 4 100 none none 0 =
      [] ++ (⟨⟨.linear, 3, 0, 7, 0, 2, none, none, 0⟩,
        [⟨.sigmoid, 3,
          (last_morph_stage ⟨.linear, 3, 0, 7, 0, 2, none, none, 0⟩ []).end_value, 9,
          (last_morph_stage ⟨.linear, 3, 0, 7, 0, 2, none, none, 0⟩ []).t_end,
          (last_morph_stage ⟨.linear, 3, 0, 7, 0, 2, none, none, 0⟩ []).t_end + 4,
          none, none, 0⟩]⟩ : MorphRec) :: [] :=
  morph_full_appends_continuous_stage [] [] _ _ 3 .sigmoid 9 4 100 none none 0
    (by simp) rfl

/-- C3: morph_break removes the morph record of the variable with all of
its chained stages, invokes no step or completion callback, and leaves the
variable at the value it held at break time (the environment and the call
log are untouched); when the variable is not being morphed, morph_break
changes nothing at all. -/
theorem morph_break_discards_silently
    (v : ℕ) (s : AnimState) (pre post : List MorphRec) (rec : MorphRec)
    (hsplit : s.morph_queue = pre ++ rec :: post)
    (hpre : ∀ r ∈ pre, r.head.var ≠ v) (hv : rec.head.var = v) :
    (morph_breakS v s).morph_queue = pre ++ post ∧
    (morph_breakS v s).env = s.env ∧
    (morph_breakS v s).calls = s.calls ∧
    (∀ s2 : AnimState, (∀ r ∈ s2.morph_queue, r.head.var ≠ v) →
      morph_breakS v s2 = s2) := by
  refine ⟨?_, rfl, rfl, ?_⟩
  · show morph_break v s.morph_queue = pre ++ post
    rw [hsplit]
    exact morph_break_split v pre post rec hpre hv
  · intro s2 h2
    cases s2 with
    | mk q e c =>
      simp only [morph_breakS]
      rw [morph_break_of_not_mem v q (by simpa using h2)]

theorem morph_break_discards_silently_witness :
    (morph_breakS 3 ⟨[⟨⟨.linear, 3, 0, 7, 0, 2, none, none, 0⟩,
        [⟨.sigmoid, 3, 7, 9, 2, 6, none, none, 0⟩]⟩], fun _ => 0, []⟩).morph_queue
        = [] ++ [] ∧
    (morph_breakS 3 ⟨[⟨⟨.linear, 3, 0, 7, 0, 2, none, none, 0⟩,
        [⟨.sigmoid, 3, 7, 9, 2, 6, none, none, 0⟩]⟩], fun _ => 0, []⟩).env
        = (fun _ => 0) ∧
    (morph_breakS 3 ⟨[⟨⟨.linear, 3, 0, 7, 0, 2, none, none, 0⟩,
        [⟨.sigmoid, 3, 7, 9, 2, 6, none, none, 0⟩]⟩], fun _ => 0, []⟩).calls
        = [] ∧
    (∀ s2 : AnimState, (∀ r ∈ s2.morph_queue, r.head.var ≠ 3) →
      morph_breakS 3 s2 = s2) :=
  morph_break_discards_silently 3 _ [] []
    ⟨⟨.linear, 3, 0, 7, 0, 2, none, none, 0⟩,
      [⟨.sigmoid, 3, 7, 9, 2, 6, none, none, 0⟩]⟩ rfl (by simp) rfl

theorem stepRecord_eq_complete_nil (t : ℝ) (env : Env) (m : Morph)
    (h : t ≥ m.t_end) :
    stepRecord t env m [] =
      (updVar env m.var m.end_value,
       (match m.end_cb with
        | some cb => [⟨.finish, m.var, cb, m.data⟩]
        | none => []),
       none) := by
  rw [stepRecord]
  simp only [if_pos h]

theorem stepRecord_eq_complete_cons (t : ℝ) (env : Env) (m m2 : Morph)
    (rest2 : List Morph) (h : t ≥ m.t_end) :
    stepRecord t env m (m2 :: rest2) =
      ((stepRecord t (updVar env m.var m.end_value) m2 rest2).1,
       (match m.end_cb with
        | some cb => [⟨.finish, m.var, cb, m.data⟩]
        | none => []) ++ (stepRecord t (updVar env m.var m.end_value) m2 rest2).2.1,
       (stepRecord t (updVar env m.var m.end_value) m2 rest2).2.2) := by
  rw [stepRecord]
  simp only [if_pos h]

theorem stepRecord_eq_active (t : ℝ) (env : Env) (m : Morph)
    (rest : List Morph) (h : ¬ t ≥ m.t_end) :
    stepRecord t env m rest =
      (updVar env m.var
         (m.start_value +
           morphRemap m.type ((t - m.t_start) / (m.t_end - m.t_start)) *
             (m.end_value - m.start_value)),
       (match m.step_cb with
        | some cb => [⟨.step, m.var, cb, m.data⟩]
        | none => []),
       some ⟨m, rest⟩) := by
  rw [stepRecord]
  simp only [if_neg h]

theorem stepRecord_other (t : ℝ) (env : Env) (m : Morph) (rest : List Morph)
    (v : ℕ) (hm : m.var ≠ v) (hrest : ∀ x ∈ rest, x.var ≠ v) :
    (stepRecord t env m rest).1 v = env v ∧
    (∀ cc ∈ (stepRecord t env m rest).2.1, cc.var ≠ v) ∧
    (∀ r', (stepRecord t env m rest).2.2 = some r' → r'.head.var ≠ v) := by
  induction rest generalizing env m with
  | nil =>
    by_cases h : t ≥ m.t_end
    · rw [stepRecord_eq_complete_nil t env m h]
      refine ⟨by simp [updVar, Ne.symm hm], ?_, by simp⟩
      intro cc hcc
      cases hecb : m.end_cb with
      | none => simp [hecb] at hcc
      | some cb =>
        simp only [hecb, List.mem_singleton] at hcc
        rw [hcc]
        exact hm
    · rw [stepRecord_eq_active t env m [] h]
      refine ⟨by simp [updVar, Ne.symm hm], ?_, ?_⟩
      · intro cc hcc
        cases hscb : m.step_cb with
        | none => simp [hscb] at hcc
        | some cb =>
          simp only [hscb, List.mem_singleton] at hcc
          rw [hcc]
          exact hm
      · intro r' hr'
        simp only [Option.some.injEq] at hr'
        rw [← hr']
        exact hm
  | cons m2 rest2 ih =>
    have hm2 : m2.var ≠ v := hrest m2 (by simp)
    have hrest2 : ∀ x ∈ rest2, x.var ≠ v := fun x hx => hrest x (by simp [hx])
    by_cases h : t ≥ m.t_end
    · have ih2 := ih (updVar env m.var m.end_value) m2 hm2 hrest2
      rw [stepRecord_eq_complete_cons t env m m2 rest2 h]
      refine ⟨?_, ?_, ?_⟩
      · rw [ih2.1]
        simp [updVar, Ne.symm hm]
      · intro cc hcc
        simp only [List.mem_append] at hcc
        rcases hcc with hcc | hcc
        · cases hecb : m.end_cb with
          | none => rw [hecb] at hcc; simp at hcc
          | some cb =>
            rw [hecb] at hcc
            simp only [List.mem_singleton] at hcc
            rw [hcc]
            exact hm
        · exact ih2.2.1 cc hcc
      · exact fun r' hr' => ih2.2.2 r' hr'
    · rw [stepRecord_eq_active t env m (m2 :: rest2) h]
      refine ⟨by simp [updVar, Ne.symm hm], ?_, ?_⟩
      · intro cc hcc
        cases hscb : m.step_cb with
        | none => rw [hscb] at hcc; simp at hcc
        | some cb =>
          rw [hscb] at hcc
          simp only [List.mem_singleton] at hcc
          rw [hcc]
          exact hm
      · intro r' hr'
        simp only [Option.some.injEq] at hr'
        rw [← hr']
        exact hm

theorem morph_iteration_other (t : ℝ) (q : List MorphRec) (env : Env) (v : ℕ)
    (hq : ∀ r ∈ q, r.head.var ≠ v ∧ ∀ m ∈ r.rest, m.var ≠ v) :
    (morph_iteration t q env).2.1 v = env v ∧
    (∀ cc ∈ (morph_iteration t q env).2.2, cc.var ≠ v) ∧
    (∀ r' ∈ (morph_iteration t q env).1, r'.head.var ≠ v) := by
  induction q generalizing env with
  | nil => simp [morph_iteration]
  | cons rec rest ih =>
    have h1 := hq rec (by simp)
    have hs := stepRecord_other t env rec.head rec.rest v h1.1 h1.2
    have ih2 := ih (stepRecord t env rec.head rec.rest).1
      (fun r hr => hq r (by simp [hr]))
    refine ⟨?_, ?_, ?_⟩
    · simp only [morph_iteration]
      rw [ih2.1, hs.1]
    · intro cc hcc
      simp only [morph_iteration, List.mem_append] at hcc
      rcases hcc with hcc | hcc
      · exact hs.2.1 cc hcc
      · exact ih2.2.1 cc hcc
    · intro r' hr'
      simp only [morph_iteration] at hr'
      cases hsurv : (stepRecord t env rec.head rec.rest).2.2 with
      | none =>
        rw [hsurv] at hr'
        exact ih2.2.2 r' hr'
      | some surv =>
        rw [hsurv] at hr'
        rcases List.mem_cons.mp hr' with h2 | h2
        · rw [h2]; exact hs.2.2 surv hsurv
        · exact ih2.2.2 r' h2

/-- C1 (amended): for a single-stage morph set up by morph_full on a fresh
variable (morph() is the callback-free special case), morph_finish only
zeroes the stage's end time — the variable itself and the callback log are
untouched when it returns; as a consequence, the NEXT scheduler tick (at
any time t ≥ 0) sets the variable to the target, invokes the completion
callback exactly once if one was supplied (and none otherwise, as with
morph()), and removes the record.  morph_finish on a variable that is not
being morphed is a no-op. -/
theorem morph_finish_completes_on_next_tick
    (q : List MorphRec) (env : Env) (v : ℕ) (ty : MorphType)
    (tgt dur t0 t : ℝ) (scb ecb : Option ℕ) (data : ℕ)
    (hq : ∀ r ∈ q, r.head.var ≠ v ∧ ∀ m ∈ r.rest, m.var ≠ v)
    (_hdur : 0 < dur) (ht : 0 ≤ t) :
    morph_finish v (morph_full q env v ty tgt dur t0 scb ecb data) =
      ⟨⟨ty, v, env v, tgt, t0, 0.0, scb, ecb, data⟩, []⟩ :: q ∧
    (morph_iteration t
        (morph_finish v (morph_full q env v ty tgt dur t0 scb ecb data))
        env).2.1 v = tgt ∧
    ((morph_iteration t
        (morph_finish v (morph_full q env v ty tgt dur t0 scb ecb data))
        env).2.2).filter
          (fun cc => decide (cc.var = v ∧ cc.kind = CbKind.finish)) =
      (match ecb with
       | some cb => [⟨CbKind.finish, v, cb, data⟩]
       | none => []) ∧
    (∀ r' ∈ (morph_iteration t
        (morph_finish v (morph_full q env v ty tgt dur t0 scb ecb data))
        env).1, r'.head.var ≠ v) ∧
    (∀ q2 : List MorphRec, (∀ r ∈ q2, r.head.var ≠ v) →
      morph_finish v q2 = q2) := by
  have hfull : morph_full q env v ty tgt dur t0 scb ecb data =
      ⟨⟨ty, v, env v, tgt, t0, t0 + dur, scb, ecb, data⟩, []⟩ :: q :=
    morph_full_fresh q env v ty tgt dur t0 scb ecb data
      (fun r hr => (hq r hr).1)
  have hfin : morph_finish v (morph_full q env v ty tgt dur t0 scb ecb data) =
      ⟨⟨ty, v, env v, tgt, t0, 0.0, scb, ecb, data⟩, []⟩ :: q := by
    rw [hfull]
    simp [morph_finish]
  have hge : t ≥ (Morph.mk ty v (env v) tgt t0 0.0 scb ecb data).t_end := by
    show t ≥ (0.0 : ℝ)
    norm_num
    exact ht
  have hstep := stepRecord_eq_complete_nil t env
    ⟨ty, v, env v, tgt, t0, 0.0, scb, ecb, data⟩ hge
  have hother := morph_iteration_other t q (updVar env v tgt) v hq
  refine ⟨hfin, ?_, ?_, ?_, ?_⟩
  · rw [hfin]
    simp only [morph_iteration, hstep]
    rw [hother.1]
    simp [updVar]
  · rw [hfin]
    simp only [morph_iteration, hstep]
    rw [List.filter_append]
    have hrest : ((morph_iteration t q (updVar env v tgt)).2.2).filter
        (fun cc => decide (cc.var = v ∧ cc.kind = CbKind.finish)) = [] := by
      rw [List.filter_eq_nil_iff]
      intro cc hcc
      simp only [decide_eq_true_eq, not_and]
      intro hv2
      exact absurd hv2 (hother.2.1 cc hcc)
    rw [hrest]
    cases ecb with
    | none => simp
    | some cb => simp
  · rw [hfin]
    intro r' hr'
    simp only [morph_iteration, hstep] at hr'
    exact hother.2.2 r' hr'
  · exact fun q2 h2 => morph_finish_of_not_mem v q2 h2

theorem morph_finish_completes_on_next_tick_witness :
    (morph_finish 0 (morph_full [] (fun _ => 0) 0 .linear 5 1 10 none (some 7) 3) =
      ⟨⟨.linear, 0, (fun _ : ℕ => (0 : ℝ)) 0, 5, 10, 0.0, none, some 7, 3⟩, []⟩
        :: [] ∧
    (morph_iteration 0
        (morph_finish 0 (morph_full [] (fun _ => 0) 0 .linear 5 1 10 none (some 7) 3))
        (fun _ => 0)).2.1 0 = 5 ∧
    ((morph_iteration 0
        (morph_finish 0 (morph_full [] (fun _ => 0) 0 .linear 5 1 10 none (some 7) 3))
        (fun _ => 0)).2.2).filter
          (fun cc => decide (cc.var = 0 ∧ cc.kind = CbKind.finish)) =
      [⟨CbKind.finish, 0, 7, 3⟩] ∧
    (∀ r' ∈ (morph_iteration 0
        (morph_finish 0 (morph_full [] (fun _ => 0) 0 .linear 5 1 10 none (some 7) 3))
        (fun _ => 0)).1, r'.head.var ≠ 0) ∧
    (∀ q2 : List MorphRec, (∀ r ∈ q2, r.head.var ≠ 0) →
      morph_finish 0 q2 = q2)) :=
  morph_finish_completes_on_next_tick [] (fun _ => 0) 0 .linear 5 1 10 0 none
    (some 7) 3 (by simp) (by norm_num) (by norm_num)

/-- C1 counterexample: after morph(v, LINEAR, 5, 1) on a variable holding 0
followed by morph_finish(v) — with no scheduler tick in between — the
variable still holds 0, not the target 5, and no completion callback has
been invoked; morph_finish only zeroed the active stage's end time.  This
refutes the claim that morph_finish sets the variable and fires the
callback immediately, before returning. -/
theorem morph_finish_not_immediate_cex :
    (morph_finishS 0 (morphS 0 .linear 5 1 10 ⟨[], fun _ => 0, []⟩)).env 0 = 0 ∧
    (morph_finishS 0 (morphS 0 .linear 5 1 10 ⟨[], fun _ => 0, []⟩)).calls = [] ∧
    (morph_finishS 0 (morphS 0 .linear 5 1 10 ⟨[], fun _ => 0, []⟩)).morph_queue =
      [⟨⟨.linear, 0, 0, 5, 10, 0.0, none, none, 0⟩, []⟩] ∧
    ((0 : ℝ) = 5 → False) := by
  refine ⟨rfl, rfl, ?_, by norm_num⟩
  show morph_finish 0 (morph [] (fun _ => 0) 0 .linear 5 1 10) = _
  rw [show morph [] (fun _ => 0) 0 .linear 5 1 10 =
    morph_full [] (fun _ => 0) 0 .linear 5 1 10 none none 0 from rfl]
  rw [morph_full_fresh [] (fun _ => 0) 0 .linear 5 1 10 none none 0 (by simp)]
  simp [morph_finish]

theorem mapv_draw_fixed (hd : Bool) (x : ℕ) :
    mapv_draw hd ⟨2, if hd then 2 else x⟩ = (⟨2, if hd then 2 else x⟩,
      ⟨false, false, true, false, false, hd⟩) := by
  cases hd <;> simp [mapv_draw]

/-- C8: geometry_queue_rebuild sets all three of the directory's staleness
flags and resets both global draw-stage counters to 0; the first subsequent
full draw performs the full recursive draw without touching the aggregate
display list, the second performs the full recursive draw while capturing
it into the aggregate display list, and every draw after that (the stages
having reached 2) only replays the aggregate list with no recursion, until
the next staleness event — so a static tree is replay-only within two
frames of any change. -/
theorem draw_stage_protocol (c : DlistFlags) (st : DrawStages) (hd : Bool) :
    (geometry_queue_rebuild (c, st)).1 = ⟨true, true, true⟩ ∧
    (geometry_queue_rebuild (c, st)).2 = ⟨0, 0⟩ ∧
    (mapv_draw hd (geometry_queue_rebuild (c, st)).2).2 =
      ⟨true, false, false, hd, false, false⟩ ∧
    (mapv_draw hd (drawNth hd (geometry_queue_rebuild (c, st)).2 1)).2 =
      ⟨true, true, false, hd, hd, false⟩ ∧
    (∀ k, (mapv_draw hd (drawNth hd (geometry_queue_rebuild (c, st)).2 (k + 2))).2 =
      ⟨false, false, true, false, false, hd⟩) := by
  refine ⟨rfl, rfl, ?_, ?_, ?_⟩
  · cases hd <;> rfl
  · cases hd <;> rfl
  · intro k
    have h2 : drawNth hd (geometry_queue_rebuild (c, st)).2 (k + 2) =
        ⟨2, if hd then 2 else 0⟩ := by
      induction k with
      | zero => cases hd <;> rfl
      | succ k ih =>
        show (mapv_draw hd (drawNth hd (geometry_queue_rebuild (c, st)).2 (k + 2))).1 = _
        rw [ih, mapv_draw_fixed]
    rw [h2, mapv_draw_fixed]

theorem colexp_step (ct t_now : ℝ) (m depth : ℕ) (dnode : ℕ)
    (q : List MorphRec) (env : Env) (hq : ∀ r ∈ q, r.head.var ≠ dnode) :
    (morph_full
        (if 0 < (m : ℤ) - (depth : ℤ) then
          morph (morph_break dnode q) env dnode .linear (env dnode)
            ((((m : ℤ) - (depth : ℤ) : ℤ) : ℝ) * ct) t_now
         else morph_break dnode q)
        env dnode .invQuadratic 1.0 ct t_now
        (some colexp_progress_cb) (some colexp_progress_cb) dnode) =
      colexpExpectedRec ct t_now m depth dnode (env dnode) :: q := by
  rw [morph_break_of_not_mem dnode q hq]
  by_cases h : 0 < (m : ℤ) - (depth : ℤ)
  · have hdm : depth < m := by omega
    rw [if_pos h]
    rw [show morph q env dnode .linear (env dnode)
        ((((m : ℤ) - (depth : ℤ) : ℤ) : ℝ) * ct) t_now =
      morph_full q env dnode .linear (env dnode)
        ((((m : ℤ) - (depth : ℤ) : ℤ) : ℝ) * ct) t_now none none 0 from rfl]
    rw [morph_full_fresh q env dnode .linear (env dnode) _ t_now none none 0 hq]
    have happ := appendStage_split
      ⟨.invQuadratic, dnode, env dnode, 1.0, t_now, t_now + ct,
        some colexp_progress_cb, some colexp_progress_cb, dnode⟩ ct []
      q ⟨⟨.linear, dnode, env dnode, env dnode, t_now,
          t_now + (((m : ℤ) - (depth : ℤ) : ℤ) : ℝ) * ct, none, none, 0⟩, []⟩
      (by simp) rfl
    simp only [List.nil_append] at happ
    simp only [morph_full, happ]
    simp [colexpExpectedRec, hdm, last_morph_stage]
  · have hdm : ¬ depth < m := by omega
    rw [if_neg h]
    rw [morph_full_fresh q env dnode .invQuadratic 1.0 ct t_now
      (some colexp_progress_cb) (some colexp_progress_cb) dnode hq]
    simp [colexpExpectedRec, hdm]

theorem colexp_expand_any_go_spec (ct t_now : ℝ) (m : ℕ) (env : Env)
    (chain : List ℕ) :
    ∀ (dnode : ℕ) (depth : ℕ) (q : List MorphRec),
      (dnode :: chain).Nodup →
      (∀ r ∈ q, ¬ r.head.var ∈ dnode :: chain) →
      colexp_expand_any_go ct t_now m depth dnode chain q env =
        colexpExpectedList ct t_now m env depth (dnode :: chain) ++ q := by
  induction chain with
  | nil =>
    intro dnode depth q hnd hq
    have hq1 : ∀ r ∈ q, r.head.var ≠ dnode := by
      intro r hr
      have := hq r hr
      simp at this
      exact this
    show (morph_full _ env dnode .invQuadratic 1.0 ct t_now
      (some colexp_progress_cb) (some colexp_progress_cb) dnode) = _
    rw [colexp_step ct t_now m depth dnode q env hq1]
    simp [colexpExpectedList]
  | cons p rest ih =>
    intro dnode depth q hnd hq
    have hq1 : ∀ r ∈ q, r.head.var ≠ dnode := by
      intro r hr
      have := hq r hr
      simp at this
      exact this.1
    show colexp_expand_any_go ct t_now m (depth + 1) p rest
        (morph_full _ env dnode .invQuadratic 1.0 ct t_now
          (some colexp_progress_cb) (some colexp_progress_cb) dnode) env = _
    rw [colexp_step ct t_now m depth dnode q env hq1]
    have hnd2 : (p :: rest).Nodup := hnd.of_cons
    have hdn : ¬ dnode ∈ p :: rest := by
      have := hnd.not_mem
      simpa using this
    have hq2 : ∀ r ∈ colexpExpectedRec ct t_now m depth dnode (env dnode) :: q,
        ¬ r.head.var ∈ p :: rest := by
      intro r hr
      rcases List.mem_cons.mp hr with h1 | h1
      · have hvar : r.head.var = dnode := by
          rw [h1]
          by_cases hdm : depth < m <;> simp [colexpExpectedRec, hdm]
        rw [hvar]
        exact hdn
      · intro hc
        exact hq r h1 (by simp [hc])
    rw [ih p (depth + 1) _ hnd2 hq2]
    simp [colexpExpectedList, List.append_assoc]

theorem collapsed_depth_three (env : Env) (a1 a2 a3 : ℕ) (above : List ℕ)
    (hc1 : env a1 < EPSILON) (hc2 : env a2 < EPSILON) (hc3 : env a3 < EPSILON)
    (habove : ∀ b rest2, above = b :: rest2 → ¬ env b < EPSILON) :
    collapsed_depth env (a1 :: a2 :: a3 :: above) = 3 := by
  cases above with
  | nil => simp [collapsed_depth, hc1, hc2, hc3]
  | cons b rest2 =>
    have hb := habove b rest2 rfl
    simp [collapsed_depth, hc1, hc2, hc3, hb]

/-- C5 (amended): a COLEXP_EXPAND_ANY request on a directory having exactly
three consecutive collapsed ancestors (the next ancestor above, if any,
being non-collapsed) computes max_depth = 3 and gives a deployment morph
toward 1 to the requested directory and to EVERY directory ancestor up the
chain — also to already-expanded ones, whose 1-to-1 morph changes no value;
only the three collapsed ancestors (and the requested directory, if not
already deployed) actually change deployment.  Each chain member at
recursion depth i < 3 is delayed by a zero-motion LINEAR hold of
(3 - i) * per_level_duration before its INV_QUADRATIC expansion morph of
one per_level_duration, so the requested (innermost) directory holds
longest and successive levels are offset by one per_level_duration each. -/
theorem colexp_expand_any_three_collapsed_levels
    (ct t_now : ℝ) (dnode a1 a2 a3 : ℕ) (above : List ℕ) (env : Env)
    (hnd : (dnode :: a1 :: a2 :: a3 :: above).Nodup)
    (hc1 : env a1 < EPSILON) (hc2 : env a2 < EPSILON) (hc3 : env a3 < EPSILON)
    (habove : ∀ b rest2, above = b :: rest2 → ¬ env b < EPSILON) :
    colexp_expand_any ct t_now dnode (a1 :: a2 :: a3 :: above) [] env =
      colexpExpectedList ct t_now 3 env 0 (dnode :: a1 :: a2 :: a3 :: above) := by
  unfold colexp_expand_any
  rw [collapsed_depth_three env a1 a2 a3 above hc1 hc2 hc3 habove]
  rw [colexp_expand_any_go_spec ct t_now 3 env (a1 :: a2 :: a3 :: above) dnode 0 []
    hnd (by simp)]
  simp

theorem colexp_expand_any_three_collapsed_levels_witness :
    colexp_expand_any 1 0 0 (1 :: 2 :: 3 :: [])
        [] (fun x => if x = 4 then 1 else 0) =
      colexpExpectedList 1 0 3 (fun x => if x = 4 then 1 else 0) 0
        (0 :: 1 :: 2 :: 3 :: []) :=
  colexp_expand_any_three_collapsed_levels 1 0 0 1 2 3 [] _
    (by norm_num)
    (by norm_num [EPSILON]) (by norm_num [EPSILON]) (by norm_num [EPSILON])
    (by intro b rest2 h; simp at h)

/-- C5 counterexample: with the requested directory 0 buried under exactly
three collapsed ancestors 1, 2, 3 and a further already-expanded ancestor 4
above them, colexp's EXPAND_ANY issues deployment morphs toward 1 on FIVE
variables — ancestor 4 is animated too (a 1-to-1 morph), not only the three
collapsed ancestors plus the requested directory. -/
theorem colexp_expand_any_animates_expanded_ancestors_cex :
    (colexp_expand_any 1 0 0 (1 :: 2 :: 3 :: 4 :: [])
        [] (fun x => if x = 4 then 1 else 0)).length = 5 ∧
    ∃ r ∈ colexp_expand_any 1 0 0 (1 :: 2 :: 3 :: 4 :: [])
        [] (fun x => if x = 4 then 1 else 0),
      r.head.var = 4 ∧ (last_morph_stage r.head r.rest).end_value = 1 := by
  have h := colexp_expand_any_go_spec 1 0 3 (fun x => if x = 4 then 1 else 0)
    (1 :: 2 :: 3 :: 4 :: []) 0 0 [] (by norm_num) (by simp)
  have hm : collapsed_depth (fun x => if x = 4 then (1 : ℝ) else 0)
      (1 :: 2 :: 3 :: 4 :: []) = 3 := by
    norm_num [collapsed_depth, EPSILON]
  unfold colexp_expand_any
  rw [hm, h]
  constructor
  · simp [colexpExpectedList]
  · refine ⟨colexpExpectedRec 1 0 3 4 4 ((fun x => if x = 4 then (1 : ℝ) else 0) 4),
      ?_, ?_, ?_⟩
    · simp [colexpExpectedList]
    · norm_num [colexpExpectedRec]
    · norm_num [colexpExpectedRec, last_morph_stage]

theorem dirUpdates_append (l1 l2 : List (ℕ × Bool)) (s : GeomState) :
    dirUpdates (l1 ++ l2) s = dirUpdates l2 (dirUpdates l1 s) := by
  induction l1 generalizing s with
  | nil => rfl
  | cons p rest ih =>
    cases p with
    | mk i e =>
      show dirUpdates (rest ++ l2) (dir_deploy_reset i e s) =
        dirUpdates l2 (dirUpdates rest (dir_deploy_reset i e s))
      exact ih (dir_deploy_reset i e s)

theorem dirUpdates_queue_sublist (l : List (ℕ × Bool)) (s : GeomState) :
    (dirUpdates l s).morph_queue.Sublist s.morph_queue := by
  induction l generalizing s with
  | nil => exact List.Sublist.refl _
  | cons p rest ih =>
    cases p with
    | mk i e =>
      exact (ih (dir_deploy_reset i e s)).trans (morph_break_sublist i s.morph_queue)

theorem dirUpdates_not_mem (l : List (ℕ × Bool)) (s : GeomState) (i : ℕ)
    (h : ¬ i ∈ l.map Prod.fst) :
    (dirUpdates l s).env i = s.env i ∧ (dirUpdates l s).stale i = s.stale i := by
  induction l generalizing s with
  | nil => exact ⟨rfl, rfl⟩
  | cons p rest ih =>
    cases p with
    | mk j e =>
      have hij : i ≠ j := by
        intro hc
        exact h (by simp [hc])
      have ih2 := ih (dir_deploy_reset j e s) (fun hc => h (by simp [hc]))
      refine ⟨?_, ?_⟩
      · rw [show dirUpdates ((j, e) :: rest) s = dirUpdates rest (dir_deploy_reset j e s)
          from rfl, ih2.1]
        simp [dir_deploy_reset, geometry_queue_rebuildAt, updVar, hij]
      · rw [show dirUpdates ((j, e) :: rest) s = dirUpdates rest (dir_deploy_reset j e s)
          from rfl, ih2.2]
        simp [dir_deploy_reset, geometry_queue_rebuildAt, updVar, hij]

theorem dirUpdates_spec (l : List (ℕ × Bool)) (s : GeomState)
    (hl : (l.map Prod.fst).Nodup)
    (hq : (s.morph_queue.map (fun r => r.head.var)).Nodup) :
    ∀ p ∈ l,
      (dirUpdates l s).env p.1 = (if p.2 then 1.0 else 0.0) ∧
      (dirUpdates l s).stale p.1 = ⟨true, true, true⟩ ∧
      (∀ r ∈ (dirUpdates l s).morph_queue, r.head.var ≠ p.1) := by
  induction l generalizing s with
  | nil => simp
  | cons hd rest ih =>
    cases hd with
    | mk i e =>
      intro p hp
      have hstep : dirUpdates ((i, e) :: rest) s =
          dirUpdates rest (dir_deploy_reset i e s) := rfl
      simp only [List.map_cons, List.nodup_cons] at hl
      have hq1 : ((dir_deploy_reset i e s).morph_queue.map
          (fun r => r.head.var)).Nodup := by
        have : (dir_deploy_reset i e s).morph_queue = morph_break i s.morph_queue :=
          rfl
        rw [this]
        exact ((morph_break_sublist i s.morph_queue).map _).nodup hq
      rcases List.mem_cons.mp hp with h1 | h1
      · subst h1
        have hother := dirUpdates_not_mem rest (dir_deploy_reset i e s) i hl.1
        refine ⟨?_, ?_, ?_⟩
        · rw [hstep, hother.1]
          simp [dir_deploy_reset, geometry_queue_rebuildAt, updVar]
        · rw [hstep, hother.2]
          simp [dir_deploy_reset, geometry_queue_rebuildAt]
        · intro r hr
          rw [hstep] at hr
          have hr2 : r ∈ (dir_deploy_reset i e s).morph_queue :=
            (dirUpdates_queue_sublist rest (dir_deploy_reset i e s)).subset hr
          have : r ∈ morph_break i s.morph_queue := hr2
          exact morph_break_no_var i s.morph_queue hq r this
      · rw [hstep]
        exact ih (dir_deploy_reset i e s) hl.2 hq1 p h1

mutual

theorem discv_init_recursive_eq (t : FsNode) (hwf : t.wf = true) (s : GeomState) :
    discv_init_recursive t s = dirUpdates (dirList t) s := by
  cases t with
  | dir id e children =>
    show discv_init_children children (dir_deploy_reset id e s) = _
    rw [discv_init_children_eq children (by simpa [FsNode.wf] using hwf)
      (dir_deploy_reset id e s)]
    rfl
  | leaf => rfl
  | meta id children => simp [FsNode.wf] at hwf

theorem discv_init_children_eq (l : List FsNode) (hwf : FsNode.wfList l = true)
    (s : GeomState) :
    discv_init_children l s = dirUpdates (dirListChildren l) s := by
  cases l with
  | nil => rfl
  | cons n rest =>
    have hwf2 : FsNode.wf n = true ∧ FsNode.wfList rest = true := by
      simpa [FsNode.wfList, Bool.and_eq_true] using hwf
    cases n with
    | dir id e children =>
      show discv_init_children rest
          (discv_init_recursive (.dir id e children) s) = _
      rw [discv_init_recursive_eq (.dir id e children) hwf2.1 s,
        discv_init_children_eq rest hwf2.2, dirListChildren, dirUpdates_append]
    | leaf =>
      show discv_init_children rest s = _
      rw [discv_init_children_eq rest hwf2.2, dirListChildren]
      rfl
    | meta id children => simp [FsNode.wf] at hwf2

end

mutual

theorem mapv_init_recursive_eq (t : FsNode) (hwf : t.wf = true) (s : GeomState) :
    mapv_init_recursive t s = dirUpdates (dirList t) s := by
  cases t with
  | dir id e children =>
    show mapv_init_children children (dir_deploy_reset id e s) = _
    rw [mapv_init_children_eq children (by simpa [FsNode.wf] using hwf)
      (dir_deploy_reset id e s)]
    rfl
  | leaf => rfl
  | meta id children => simp [FsNode.wf] at hwf

theorem mapv_init_children_eq (l : List FsNode) (hwf : FsNode.wfList l = true)
    (s : GeomState) :
    mapv_init_children l s = dirUpdates (dirListChildren l) s := by
  cases l with
  | nil => rfl
  | cons n rest =>
    have hwf2 : FsNode.wf n = true ∧ FsNode.wfList rest = true := by
      simpa [FsNode.wfList, Bool.and_eq_true] using hwf
    cases n with
    | dir id e children =>
      show mapv_init_children rest
          (mapv_init_recursive (.dir id e children) s) = _
      rw [mapv_init_recursive_eq (.dir id e children) hwf2.1 s,
        mapv_init_children_eq rest hwf2.2, dirListChildren, dirUpdates_append]
    | leaf =>
      show mapv_init_children rest s = _
      rw [mapv_init_children_eq rest hwf2.2, dirListChildren]
      rfl
    | meta id children => simp [FsNode.wf] at hwf2

end

mutual

theorem treev_init_recursive_eq (t : FsNode) (hwf : t.wf = true) (s : GeomState) :
    treev_init_recursive t s = dirUpdates (dirList t) s := by
  cases t with
  | dir id e children =>
    show treev_init_children children (dir_deploy_reset id e s) = _
    rw [treev_init_children_eq children (by simpa [FsNode.wf] using hwf)
      (dir_deploy_reset id e s)]
    rfl
  | leaf => rfl
  | meta id children => simp [FsNode.wf] at hwf

theorem treev_init_children_eq (l : List FsNode) (hwf : FsNode.wfList l = true)
    (s : GeomState) :
    treev_init_children l s = dirUpdates (dirListChildren l) s := by
  cases l with
  | nil => rfl
  | cons n rest =>
    have hwf2 : FsNode.wf n = true ∧ FsNode.wfList rest = true := by
      simpa [FsNode.wfList, Bool.and_eq_true] using hwf
    cases n with
    | dir id e children =>
      show treev_init_children rest
          (treev_init_recursive (.dir id e children) s) = _
      rw [treev_init_recursive_eq (.dir id e children) hwf2.1 s,
        treev_init_children_eq rest hwf2.2, dirListChildren, dirUpdates_append]
    | leaf =>
      show treev_init_children rest s = _
      rw [treev_init_children_eq rest hwf2.2, dirListChildren]
      rfl
    | meta id children => simp [FsNode.wf] at hwf2

end

theorem geometry_init_eq (mode : FsvMode) (mid : ℕ) (root : FsNode)
    (s : GeomState) (hwf : root.wf = true) :
    geometry_init mode (.meta mid [root]) s =
      dirUpdates (dirList root)
        (geometry_queue_rebuildAt mid { s with env := updVar s.env mid 1.0 }) := by
  have hwfl : FsNode.wfList [root] = true := by
    simp [FsNode.wfList, hwf]
  cases mode with
  | discv =>
    show discv_init_recursive (.meta mid [root]) _ = _
    rw [show ∀ s2, discv_init_recursive (.meta mid [root]) s2 =
        discv_init_children [root] s2 from fun _ => rfl]
    rw [discv_init_children_eq [root] hwfl]
    show dirUpdates (dirListChildren [root]) _ = _
    simp only [dirListChildren, List.append_nil]
    rfl
  | mapv =>
    show mapv_init_recursive root _ = _
    rw [mapv_init_recursive_eq root hwf]
    rfl
  | treev =>
    show treev_init_recursive (.meta mid [root]) _ = _
    rw [show ∀ s2, treev_init_recursive (.meta mid [root]) s2 =
        treev_init_children [root] s2 from fun _ => rfl]
    rw [treev_init_children_eq [root] hwfl]
    show dirUpdates (dirListChildren [root]) _ = _
    simp only [dirListChildren, List.append_nil]
    rfl

/-- C9: whenever a visualization mode is (re)initialized through
geometry_init, every directory in the tree has any in-flight deployment
morph cancelled (no morph record on its deployment remains), its deployment
scalar set to exactly 1.0 if its directory-tree entry is expanded and
exactly 0.0 otherwise, and its three caches marked stale — so no
intermediate deployment value survives a mode switch or re-layout. -/
theorem geometry_init_resets_every_deployment (mode : FsvMode) (mid : ℕ)
    (root : FsNode) (s : GeomState) (hwf : root.wf = true)
    (hnd : ((dirList root).map Prod.fst).Nodup)
    (hq : (s.morph_queue.map (fun r => r.head.var)).Nodup) :
    ∀ p ∈ dirList root,
      (geometry_init mode (.meta mid [root]) s).env p.1 =
          (if p.2 then 1.0 else 0.0) ∧
      (geometry_init mode (.meta mid [root]) s).stale p.1 = ⟨true, true, true⟩ ∧
      (∀ r ∈ (geometry_init mode (.meta mid [root]) s).morph_queue,
        r.head.var ≠ p.1) := by
  rw [geometry_init_eq mode mid root s hwf]
  exact dirUpdates_spec (dirList root)
    (geometry_queue_rebuildAt mid { s with env := updVar s.env mid 1.0 })
    hnd hq

theorem geometry_init_resets_every_deployment_witness :
    (2, false) ∈ dirList (.dir 1 true [.dir 2 false [.leaf], .leaf]) ∧
    ((geometry_init .mapv
          (.meta 0 [.dir 1 true [.dir 2 false [.leaf], .leaf]])
          ⟨[], fun _ => 0, fun _ => ⟨false, false, false⟩, ⟨5, 7⟩⟩).env 2 = 0.0 ∧
      (geometry_init .mapv
          (.meta 0 [.dir 1 true [.dir 2 false [.leaf], .leaf]])
          ⟨[], fun _ => 0, fun _ => ⟨false, false, false⟩, ⟨5, 7⟩⟩).stale 2 =
          ⟨true, true, true⟩ ∧
      (∀ r ∈ (geometry_init .mapv
          (.meta 0 [.dir 1 true [.dir 2 false [.leaf], .leaf]])
          ⟨[], fun _ => 0, fun _ => ⟨false, false, false⟩, ⟨5, 7⟩⟩).morph_queue,
        r.head.var ≠ 2)) :=
  ⟨by decide,
   geometry_init_resets_every_deployment .mapv 0
    (.dir 1 true [.dir 2 false [.leaf], .leaf])
    ⟨[], fun _ => 0, fun _ => ⟨false, false, false⟩, ⟨5, 7⟩⟩
    (by decide) (by decide) (by simp) (2, false) (by decide)⟩

/-! ### MapV layout lemmas -/

theorem mapv_border_math (x y av : ℝ) (hav : 0 < av) :
    (x - 2 * (0.25 * ((x + y) -
        Real.sqrt ((x + y) * (x + y) - 4.0 * (x * y - av))))) *
      (y - 2 * (0.25 * ((x + y) -
        Real.sqrt ((x + y) * (x + y) - 4.0 * (x * y - av))))) = av ∧
    0 < x - 2 * (0.25 * ((x + y) -
        Real.sqrt ((x + y) * (x + y) - 4.0 * (x * y - av)))) ∧
    0 < y - 2 * (0.25 * ((x + y) -
        Real.sqrt ((x + y) * (x + y) - 4.0 * (x * y - av)))) := by
  have harg : (x + y) * (x + y) - 4.0 * (x * y - av) = (x - y) ^ 2 + 4 * av := by
    ring
  rw [harg]
  have hD : (0 : ℝ) < (x - y) ^ 2 + 4 * av := by nlinarith [sq_nonneg (x - y)]
  have hs : Real.sqrt ((x - y) ^ 2 + 4 * av) ^ 2 = (x - y) ^ 2 + 4 * av :=
    Real.sq_sqrt hD.le
  have hspos : 0 < Real.sqrt ((x - y) ^ 2 + 4 * av) := Real.sqrt_pos.mpr hD
  set s := Real.sqrt ((x - y) ^ 2 + 4 * av) with hsdef
  have hu : x - 2 * (0.25 * ((x + y) - s)) = (x - y) / 2 + s / 2 := by ring
  have hv : y - 2 * (0.25 * ((x + y) - s)) = (y - x) / 2 + s / 2 := by ring
  rw [hu, hv]
  have hprod : ((x - y) / 2 + s / 2) * ((y - x) / 2 + s / 2) = av := by
    have : s ^ 2 = (x - y) ^ 2 + 4 * av := hs
    nlinarith [this]
  refine ⟨hprod, ?_, ?_⟩
  · by_contra hle
    push_neg at hle
    have hv2 : (y - x) / 2 + s / 2 ≤ 0 := by nlinarith
    nlinarith
  · by_contra hle
    push_neg at hle
    have hu2 : (x - y) / 2 + s / 2 ≤ 0 := by nlinarith
    nlinarith

theorem mapv_rows_go_flatten (dirx : ℝ) (l : List (ℝ × MapVChild)) :
    ∀ (cur : List (ℝ × MapVChild)) (a : ℝ),
      (mapv_rows_go dirx l cur a).flatten = cur.reverse ++ l := by
  induction l with
  | nil =>
    intro cur a
    by_cases h : cur.isEmpty
    · have : cur = [] := List.isEmpty_iff.mp h
      simp [mapv_rows_go, h, this]
    · simp [mapv_rows_go, h]
  | cons b rest ih =>
    intro cur a
    by_cases h : b.1 / ((a + b.1) / dirx) / ((a + b.1) / dirx) < 1.0
    · simp only [mapv_rows_go, if_pos h, List.flatten_cons, ih [] 0]
      simp
    · simp only [mapv_rows_go, if_neg h, ih (b :: cur) (a + b.1)]
      simp

theorem mapv_rows_go_ne_nil (dirx : ℝ) (l : List (ℝ × MapVChild)) :
    ∀ (cur : List (ℝ × MapVChild)) (a : ℝ),
      ∀ row ∈ mapv_rows_go dirx l cur a, row ≠ [] := by
  induction l with
  | nil =>
    intro cur a row hrow
    by_cases h : cur.isEmpty
    · simp [mapv_rows_go, h] at hrow
    · simp only [mapv_rows_go, if_neg h, List.mem_singleton] at hrow
      rw [hrow]
      simp only [ne_eq, List.reverse_eq_nil_iff]
      exact fun hc => h (by simp [hc])
  | cons b rest ih =>
    intro cur a row hrow
    by_cases h : b.1 / ((a + b.1) / dirx) / ((a + b.1) / dirx) < 1.0
    · simp only [mapv_rows_go, if_pos h, List.mem_cons] at hrow
      rcases hrow with h1 | h1
      · rw [h1]; simp
      · exact ih [] 0 row h1
    · simp only [mapv_rows_go, if_neg h] at hrow
      exact ih (b :: cur) (a + b.1) row hrow

theorem mapv_output_row_spec (sf ydim : ℝ) (row : List (ℝ × MapVChild))
    (hy : 0 < ydim)
    (hav : ∀ pc ∈ row, 0 < sf * ((mapv_node_size pc.2 : ℤ) : ℝ)) :
    ∀ pos : XY,
      List.Forall₂ (mapv_block_ok sf) (mapv_output_row sf ydim row pos)
        (row.map Prod.snd) := by
  induction row with
  | nil => intro pos; simp [mapv_output_row]
  | cons pc rest ih =>
    intro pos
    cases pc with
    | mk a c =>
      simp only [mapv_output_row, List.map_cons]
      refine List.Forall₂.cons ?_ (ih (fun x hx => hav x (by simp [hx])) _)
      have hxy : (a / ydim) * ydim = a := div_mul_cancel₀ a hy.ne.symm
      have hb := mapv_border_math (a / ydim) ydim
        (sf * ((mapv_node_size c : ℤ) : ℝ)) (hav (a, c) (by simp))
      rw [hxy] at hb
      constructor
      · have e1 : (pos.x - 0.25 * (a / ydim + ydim -
            Real.sqrt ((a / ydim + ydim) * (a / ydim + ydim) -
              4.0 * (a - sf * ((mapv_node_size c : ℤ) : ℝ)))) -
            (pos.x - a / ydim + 0.25 * (a / ydim + ydim -
            Real.sqrt ((a / ydim + ydim) * (a / ydim + ydim) -
              4.0 * (a - sf * ((mapv_node_size c : ℤ) : ℝ)))))) *
            (pos.y - 0.25 * (a / ydim + ydim -
            Real.sqrt ((a / ydim + ydim) * (a / ydim + ydim) -
              4.0 * (a - sf * ((mapv_node_size c : ℤ) : ℝ)))) -
            (pos.y - ydim + 0.25 * (a / ydim + ydim -
            Real.sqrt ((a / ydim + ydim) * (a / ydim + ydim) -
              4.0 * (a - sf * ((mapv_node_size c : ℤ) : ℝ)))))) =
            (a / ydim - 2 * (0.25 * ((a / ydim + ydim) -
              Real.sqrt ((a / ydim + ydim) * (a / ydim + ydim) -
                4.0 * (a - sf * ((mapv_node_size c : ℤ) : ℝ)))))) *
            (ydim - 2 * (0.25 * ((a / ydim + ydim) -
              Real.sqrt ((a / ydim + ydim) * (a / ydim + ydim) -
                4.0 * (a - sf * ((mapv_node_size c : ℤ) : ℝ)))))) := by
          ring
      
        exact e1.trans hb.1
      constructor
      · have e2 : pos.x - 0.25 * (a / ydim + ydim -
            Real.sqrt ((a / ydim + ydim) * (a / ydim + ydim) -
              4.0 * (a - sf * ((mapv_node_size c : ℤ) : ℝ)))) -
            (pos.x - a / ydim + 0.25 * (a / ydim + ydim -
            Real.sqrt ((a / ydim + ydim) * (a / ydim + ydim) -
              4.0 * (a - sf * ((mapv_node_size c : ℤ) : ℝ))))) =
            a / ydim - 2 * (0.25 * ((a / ydim + ydim) -
              Real.sqrt ((a / ydim + ydim) * (a / ydim + ydim) -
                4.0 * (a - sf * ((mapv_node_size c : ℤ) : ℝ))))) := by
          ring
        exact lt_of_lt_of_eq hb.2.1 e2.symm
      · have e3 : pos.y - 0.25 * (a / ydim + ydim -
            Real.sqrt ((a / ydim + ydim) * (a / ydim + ydim) -
              4.0 * (a - sf * ((mapv_node_size c : ℤ) : ℝ)))) -
            (pos.y - ydim + 0.25 * (a / ydim + ydim -
            Real.sqrt ((a / ydim + ydim) * (a / ydim + ydim) -
              4.0 * (a - sf * ((mapv_node_size c : ℤ) : ℝ))))) =
            ydim - 2 * (0.25 * ((a / ydim + ydim) -
              Real.sqrt ((a / ydim + ydim) * (a / ydim + ydim) -
                4.0 * (a - sf * ((mapv_node_size c : ℤ) : ℝ))))) := by
          ring
        exact lt_of_lt_of_eq hb.2.2 e3.symm

theorem mapv_output_rows_spec (sf dirx startx : ℝ)
    (rows : List (List (ℝ × MapVChild))) (hd : 0 < dirx)
    (hrows : ∀ row ∈ rows, row ≠ [] ∧
      ∀ pc ∈ row, 0 < pc.1 ∧ 0 < sf * ((mapv_node_size pc.2 : ℤ) : ℝ)) :
    ∀ posy : ℝ,
      List.Forall₂ (mapv_block_ok sf)
        (mapv_output_rows sf dirx startx rows posy)
        (rows.flatten.map Prod.snd) := by
  induction rows with
  | nil => intro posy; simp [mapv_output_rows]
  | cons row rest ih =>
    intro posy
    have hrow := hrows row (by simp)
    have hy : 0 < (row.map Prod.fst).sum / dirx := by
      apply div_pos _ hd
      apply List.sum_pos
      · intro a ha
        rcases List.mem_map.mp ha with ⟨pc, hpc, hpc2⟩
        rw [← hpc2]
        exact (hrow.2 pc hpc).1
      · simpa using hrow.1
    simp only [mapv_output_rows, List.flatten_cons, List.map_append]
    exact List.rel_append
      (mapv_output_row_spec sf _ row hy (fun pc hpc => (hrow.2 pc hpc).2) _)
      (ih (fun r hr => hrows r (by simp [hr])) _)

theorem mapv_setup_pos (w d h : ℝ) (children : List MapVChild)
    (hw : 0 < w) (hd0 : 0 < d) (hne : children ≠ [])
    (hsub : ∀ c ∈ children, 0 ≤ c.subtreeSize) :
    0 < (mapv_setup w d h children).dirx ∧
    0 < (mapv_setup w d h children).diry ∧
    0 < (mapv_setup w d h children).nb ∧
    0 < (mapv_setup w d h children).sf ∧
    ∀ c ∈ children, (256 : ℝ) ≤ ((mapv_node_size c : ℤ) : ℝ) := by
  have hx0 : 0 < w - 2.0 * min h (0.032 * w) := by
    have := min_le_right h (0.032 * w)
    nlinarith
  have hy0 : 0 < d - 2.0 * min h (0.032 * d) := by
    have := min_le_right h (0.032 * d)
    nlinarith
  have hsq : 0 < Real.sqrt ((w - 2.0 * min h (0.032 * w)) *
      (d - 2.0 * min h (0.032 * d))) :=
    Real.sqrt_pos.mpr (by positivity)
  have hnb : 0 < min (0.01 * Real.sqrt ((w - 2.0 * min h (0.032 * w)) *
      (d - 2.0 * min h (0.032 * d))))
      (min (w - 2.0 * min h (0.032 * w)) (d - 2.0 * min h (0.032 * d)) / 3.0) := by
    apply lt_min
    · positivity
    · positivity
  have hnb3 : min (0.01 * Real.sqrt ((w - 2.0 * min h (0.032 * w)) *
      (d - 2.0 * min h (0.032 * d))))
      (min (w - 2.0 * min h (0.032 * w)) (d - 2.0 * min h (0.032 * d)) / 3.0) ≤
      min (w - 2.0 * min h (0.032 * w)) (d - 2.0 * min h (0.032 * d)) / 3.0 :=
    min_le_right _ _
  have hdirx : 0 < (mapv_setup w d h children).dirx := by
    show 0 < w - 2.0 * min h (0.032 * w) - _
    have h1 : min (w - 2.0 * min h (0.032 * w)) (d - 2.0 * min h (0.032 * d)) ≤
        w - 2.0 * min h (0.032 * w) := min_le_left _ _
    nlinarith
  have hdiry : 0 < (mapv_setup w d h children).diry := by
    show 0 < d - 2.0 * min h (0.032 * d) - _
    have h1 : min (w - 2.0 * min h (0.032 * w)) (d - 2.0 * min h (0.032 * d)) ≤
        d - 2.0 * min h (0.032 * d) := min_le_right _ _
    nlinarith
  have hsize : ∀ c ∈ children, (256 : ℝ) ≤ ((mapv_node_size c : ℤ) : ℝ) := by
    intro c hc
    have h1 : (256 : ℤ) ≤ mapv_node_size c := by
      have := hsub c hc
      unfold mapv_node_size
      by_cases hdir : c.isDir <;> simp [hdir] <;> omega
    exact_mod_cast h1
  have htot : 0 < (children.map
      (fun c => (Real.sqrt ((mapv_node_size c : ℤ) : ℝ) +
        min (0.01 * Real.sqrt ((w - 2.0 * min h (0.032 * w)) *
            (d - 2.0 * min h (0.032 * d))))
          (min (w - 2.0 * min h (0.032 * w)) (d - 2.0 * min h (0.032 * d)) / 3.0)) ^ 2)).sum := by
    apply List.sum_pos
    · intro a ha
      rcases List.mem_map.mp ha with ⟨c, hc, hc2⟩
      rw [← hc2]
      have : 0 ≤ Real.sqrt ((mapv_node_size c : ℤ) : ℝ) := Real.sqrt_nonneg _
      positivity
    · simpa using hne
  refine ⟨hdirx, hdiry, hnb, ?_, hsize⟩
  show 0 < _ * _ / _
  exact div_pos (mul_pos hdirx hdiry) htot

theorem mapv_layout_spec (w d h cx cy : ℝ) (children : List MapVChild)
    (hw : 0 < w) (hd0 : 0 < d) (hne : children ≠ [])
    (hsub : ∀ c ∈ children, 0 ≤ c.subtreeSize) :
    List.Forall₂ (mapv_block_ok (mapv_setup w d h children).sf)
      (mapv_layout w d h cx cy children) children := by
  obtain ⟨hdirx, hdiry, hnb, hsf, hsize⟩ :=
    mapv_setup_pos w d h children hw hd0 hne hsub
  have hflat : (mapv_rows (mapv_setup w d h children).dirx
      (children.map (fun c => ((mapv_setup w d h children).sf *
        (Real.sqrt ((mapv_node_size c : ℤ) : ℝ) +
          (mapv_setup w d h children).nb) ^ 2, c)))).flatten =
      children.map (fun c => ((mapv_setup w d h children).sf *
        (Real.sqrt ((mapv_node_size c : ℤ) : ℝ) +
          (mapv_setup w d h children).nb) ^ 2, c)) := by
    unfold mapv_rows
    rw [mapv_rows_go_flatten]
    rfl
  have hrows : ∀ row ∈ mapv_rows (mapv_setup w d h children).dirx
      (children.map (fun c => ((mapv_setup w d h children).sf *
        (Real.sqrt ((mapv_node_size c : ℤ) : ℝ) +
          (mapv_setup w d h children).nb) ^ 2, c))), row ≠ [] ∧
      ∀ pc ∈ row, 0 < pc.1 ∧
        0 < (mapv_setup w d h children).sf * ((mapv_node_size pc.2 : ℤ) : ℝ) := by
    intro row hrow
    refine ⟨mapv_rows_go_ne_nil _ _ [] 0 row hrow, ?_⟩
    intro pc hpc
    have hmem : pc ∈ children.map (fun c => ((mapv_setup w d h children).sf *
        (Real.sqrt ((mapv_node_size c : ℤ) : ℝ) +
          (mapv_setup w d h children).nb) ^ 2, c)) := by
      rw [← hflat]
      exact List.mem_flatten.mpr ⟨row, hrow, hpc⟩
    rcases List.mem_map.mp hmem with ⟨c, hc, hc2⟩
    have h256 := hsize c hc
    constructor
    · rw [← hc2]
      have h1 : 0 < Real.sqrt ((mapv_node_size c : ℤ) : ℝ) +
          (mapv_setup w d h children).nb := by
        have := Real.sqrt_nonneg (((mapv_node_size c : ℤ) : ℝ))
        linarith
      positivity
    · rw [← hc2]
      have h2 : (0 : ℝ) < ((mapv_node_size c : ℤ) : ℝ) := by linarith
      exact mul_pos hsf h2
  have hmain := mapv_output_rows_spec (mapv_setup w d h children).sf
    (mapv_setup w d h children).dirx (cx + 0.5 * (mapv_setup w d h children).dirx)
    (mapv_rows (mapv_setup w d h children).dirx
      (children.map (fun c => ((mapv_setup w d h children).sf *
        (Real.sqrt ((mapv_node_size c : ℤ) : ℝ) +
          (mapv_setup w d h children).nb) ^ 2, c))))
    hdirx hrows (cy + 0.5 * (mapv_setup w d h children).diry)
  rw [hflat] at hmain
  have hsnd : (children.map (fun c => ((mapv_setup w d h children).sf *
      (Real.sqrt ((mapv_node_size c : ℤ) : ℝ) +
        (mapv_setup w d h children).nb) ^ 2, c))).map Prod.snd = children := by
    rw [List.map_map]
    have hcomp : (Prod.snd ∘ fun c : MapVChild =>
        ((mapv_setup w d h children).sf * (Real.sqrt ((mapv_node_size c : ℤ) : ℝ) +
          (mapv_setup w d h children).nb) ^ 2, c)) = fun c => c := rfl
    rw [hcomp]
    simp
  rw [hsnd] at hmain
  exact hmain

/-- C6 (amended): in the MapV layout of any directory's children, each
block's border width b = 0.25*(k - sqrt(k^2 - 4*(block_area - node_area)))
with k = block_width + block_depth makes the visible footprint
(block_width - 2b)*(block_depth - 2b) exactly equal to the scaled node area
scale_factor * max(256, size) (+ subtree size for directories), and every
block's visible extents are positive.  Consequently, for a directory with
two children of sizes 900 and 100 the visible footprint areas are in the
exact ratio 900 : 256 — the 100-byte child is clamped to the 256-byte
minimum — not 900 : 100. -/
theorem mapv_layout_footprint_exact (w d h cx cy : ℝ) (children : List MapVChild)
    (hw : 0 < w) (hd0 : 0 < d) (hne : children ≠ [])
    (hsub : ∀ c ∈ children, 0 ≤ c.subtreeSize) :
    List.Forall₂ (mapv_block_ok (mapv_setup w d h children).sf)
      (mapv_layout w d h cx cy children) children :=
  mapv_layout_spec w d h cx cy children hw hd0 hne hsub

theorem mapv_layout_footprint_exact_witness :
    List.Forall₂ (mapv_block_ok
        (mapv_setup 100 100 384 [⟨false, 900, 0⟩, ⟨false, 100, 0⟩]).sf)
      (mapv_layout 100 100 384 0 0 [⟨false, 900, 0⟩, ⟨false, 100, 0⟩])
      [⟨false, 900, 0⟩, ⟨false, 100, 0⟩] :=
  mapv_layout_footprint_exact 100 100 384 0 0 [⟨false, 900, 0⟩, ⟨false, 100, 0⟩]
    (by norm_num) (by norm_num) (by simp) (by decide)

/-- C6 counterexample: for a directory (top face 100 x 100, height 384) with
two leaf children of sizes 900 and 100, the two visible footprint areas are
in the exact ratio 900 : 256 (the 100-byte child's area having been clamped
to max(256, 100) = 256), and NOT 900 : 100 — the first area is not 9 times
the second. -/
theorem mapv_layout_ratio_900_100_cex :
    ((mapv_layout 100 100 384 0 0
        [⟨false, 900, 0⟩, ⟨false, 100, 0⟩]).getD 0 mapvZeroBlock).visArea * 256 =
      ((mapv_layout 100 100 384 0 0
        [⟨false, 900, 0⟩, ⟨false, 100, 0⟩]).getD 1 mapvZeroBlock).visArea * 900 ∧
    ¬ ((mapv_layout 100 100 384 0 0
        [⟨false, 900, 0⟩, ⟨false, 100, 0⟩]).getD 0 mapvZeroBlock).visArea =
      9 * ((mapv_layout 100 100 384 0 0
        [⟨false, 900, 0⟩, ⟨false, 100, 0⟩]).getD 1 mapvZeroBlock).visArea := by
  have h := mapv_layout_spec 100 100 384 0 0 [⟨false, 900, 0⟩, ⟨false, 100, 0⟩]
    (by norm_num) (by norm_num) (by simp) (by decide)
  obtain ⟨-, -, -, hsf, -⟩ :=
    mapv_setup_pos 100 100 384 [⟨false, 900, 0⟩, ⟨false, 100, 0⟩]
      (by norm_num) (by norm_num) (by simp) (by decide)
  rcases List.forall₂_cons_right_iff.mp h with ⟨o1, l1, h1, htail, hL⟩
  rcases List.forall₂_cons_right_iff.mp htail with ⟨o2, l2, h2, htail2, hL1⟩
  have hL2 : l2 = [] := by
    cases htail2
    rfl
  rw [hL2] at hL1
  rw [hL1] at hL
  have hs900 : ((mapv_node_size ⟨false, 900, 0⟩ : ℤ) : ℝ) = 900 := by
    norm_num [mapv_node_size]
  have hs100 : ((mapv_node_size ⟨false, 100, 0⟩ : ℤ) : ℝ) = 256 := by
    norm_num [mapv_node_size]
  rw [mapv_block_ok] at h1 h2
  rw [hs900] at h1
  rw [hs100] at h2
  rw [hL]
  simp only [List.getD_cons_zero, List.getD_cons_succ]
  constructor
  · rw [MapVBlockOut.visArea, MapVBlockOut.visArea, h1.1, h2.1]
    ring
  · rw [MapVBlockOut.visArea, MapVBlockOut.visArea, h1.1, h2.1]
    intro hc
    nlinarith

/-! ### TreeV platform reshaping lemmas -/

theorem treev_ka_eq (A r : ℝ) : treev_ka A r = -108 * treev_q A r := by
  unfold treev_ka treev_q TREEV_PLATFORM_SPACING_WIDTH
  ring

theorem treev_disc_eq (A r : ℝ) :
    treev_disc A r = -81 * treev_q A r ^ 2 - 12 * treev_p A r ^ 3 := by
  unfold treev_disc treev_q treev_p TREEV_PLATFORM_SPACING_WIDTH
  ring

theorem treev_p_neg (A r : ℝ) (hA : 0 < A) : treev_p A r < 0 := by
  unfold treev_p TREEV_PLATFORM_SPACING_WIDTH
  nlinarith [sq_nonneg (2.0 * r - 256)]

theorem treev_disc_nonneg (A r : ℝ) (hA : 0 ≤ A) (hr : 8192 ≤ r) :
    0 ≤ treev_disc A r := by
  have key : treev_disc A r =
      96 * A ^ 3 + 156 * A ^ 2 * (r - 8192) ^ 2 + 2543616 * A ^ 2 * (r - 8192)
        + 10371538944 * A ^ 2 + 192 * A * (r - 8192) ^ 4
        + 6168576 * A * (r - 8192) ^ 3 + 74321104896 * A * (r - 8192) ^ 2
        + 397991029506048 * A * (r - 8192) + 799256985502482432 * A
        + 12582912 * (r - 8192) ^ 4 + 405861826560 * (r - 8192) ^ 3
        + 4908748190515200 * (r - 8192) ^ 2 + 26384267267058696192 * (r - 8192)
        + 53175903716549314215936 := by
    unfold treev_disc TREEV_PLATFORM_SPACING_WIDTH
    ring
  rw [key]
  have hy : (0 : ℝ) ≤ r - 8192 := by linarith
  have t1 : (0 : ℝ) ≤ A ^ 3 := pow_nonneg hA 3
  have t2 : (0 : ℝ) ≤ A ^ 2 * (r - 8192) ^ 2 :=
    mul_nonneg (pow_nonneg hA 2) (pow_nonneg hy 2)
  have t3 : (0 : ℝ) ≤ A ^ 2 * (r - 8192) := mul_nonneg (pow_nonneg hA 2) hy
  have t4 : (0 : ℝ) ≤ A ^ 2 := pow_nonneg hA 2
  have t5 : (0 : ℝ) ≤ A * (r - 8192) ^ 4 := mul_nonneg hA (pow_nonneg hy 4)
  have t6 : (0 : ℝ) ≤ A * (r - 8192) ^ 3 := mul_nonneg hA (pow_nonneg hy 3)
  have t7 : (0 : ℝ) ≤ A * (r - 8192) ^ 2 := mul_nonneg hA (pow_nonneg hy 2)
  have t8 : (0 : ℝ) ≤ A * (r - 8192) := mul_nonneg hA hy
  have t9 : (0 : ℝ) ≤ (r - 8192) ^ 4 := pow_nonneg hy 4
  have t10 : (0 : ℝ) ≤ (r - 8192) ^ 3 := pow_nonneg hy 3
  have t11 : (0 : ℝ) ≤ (r - 8192) ^ 2 := pow_nonneg hy 2
  linarith

theorem hypot_nonneg (x y : ℝ) : 0 ≤ hypot x y :=
  Real.sqrt_nonneg _

theorem hypot_sq (x y : ℝ) : hypot x y ^ 2 = x ^ 2 + y ^ 2 := by
  unfold hypot
  rw [Real.sq_sqrt (by nlinarith [sq_nonneg x, sq_nonneg y])]
  ring

theorem treev_kb_nonneg (A r : ℝ) : 0 ≤ treev_kb A r := by
  unfold treev_kb
  positivity

theorem treev_kb_sq (A r : ℝ) (hA : 0 ≤ A) (hr : 8192 ≤ r) :
    treev_kb A r ^ 2 = 144 * treev_disc A r := by
  unfold treev_kb
  rw [mul_pow, Real.sq_sqrt (treev_disc_nonneg A r hA hr)]
  norm_num

theorem treev_h_sq (A r : ℝ) (hA : 0 ≤ A) (hr : 8192 ≤ r) :
    hypot (treev_ka A r) (treev_kb A r) ^ 2 = -1728 * treev_p A r ^ 3 := by
  rw [hypot_sq, treev_kb_sq A r hA hr, treev_ka_eq, treev_disc_eq]
  ring

theorem treev_h_pos (A r : ℝ) (hA : 0 < A) (hr : 8192 ≤ r) :
    0 < hypot (treev_ka A r) (treev_kb A r) := by
  have h2 : 0 < hypot (treev_ka A r) (treev_kb A r) ^ 2 := by
    rw [treev_h_sq A r hA.le hr]
    have hp := treev_p_neg A r hA
    nlinarith [pow_pos (neg_pos.mpr hp) 3]
  rcases lt_or_eq_of_le (hypot_nonneg (treev_ka A r) (treev_kb A r)) with h | h
  · exact h
  · rw [← h] at h2
    norm_num at h2

theorem cbrt_cube (x : ℝ) (hx : 0 ≤ x) : cbrt x ^ 3 = x := by
  unfold cbrt
  rw [if_pos hx]
  rw [← Real.rpow_natCast (x ^ ((1 : ℝ) / 3)) 3, ← Real.rpow_mul hx]
  norm_num

theorem cbrt_pos (x : ℝ) (hx : 0 < x) : 0 < cbrt x := by
  unfold cbrt
  rw [if_pos hx.le]
  exact Real.rpow_pos_of_pos hx _

theorem pow_three_inj_nonneg (a b : ℝ) (ha : 0 ≤ a) (hb : 0 ≤ b)
    (h : a ^ 3 = b ^ 3) : a = b := by
  rcases lt_trichotomy a b with h1 | h1 | h1
  · have h2 := pow_lt_pow_left h1 ha (n := 3) (by norm_num)
    linarith
  · exact h1
  · have h2 := pow_lt_pow_left h1 hb (n := 3) (by norm_num)
    linarith

theorem treev_kd_cube (A r : ℝ) :
    treev_kd A r ^ 3 = hypot (treev_ka A r) (treev_kb A r) := by
  unfold treev_kd
  exact cbrt_cube _ (hypot_nonneg _ _)

theorem treev_kd_pos (A r : ℝ) (hA : 0 < A) (hr : 8192 ≤ r) :
    0 < treev_kd A r := by
  unfold treev_kd
  exact cbrt_pos _ (treev_h_pos A r hA hr)

theorem treev_kd_sq (A r : ℝ) (hA : 0 < A) (hr : 8192 ≤ r) :
    treev_kd A r ^ 2 = -12 * treev_p A r := by
  have hp := treev_p_neg A r hA
  apply pow_three_inj_nonneg _ _ (sq_nonneg _) (by nlinarith)
  have h1 : (treev_kd A r ^ 2) ^ 3 = (treev_kd A r ^ 3) ^ 2 := by ring
  rw [h1, treev_kd_cube, treev_h_sq A r hA.le hr]
  ring

theorem treev_abs_z (A r : ℝ) :
    Complex.abs ⟨treev_ka A r, treev_kb A r⟩ =
      hypot (treev_ka A r) (treev_kb A r) := by
  rw [Complex.abs_apply, Complex.normSq_mk]
  rfl

theorem treev_z_ne_zero (A r : ℝ) (hA : 0 < A) (hr : 8192 ≤ r) :
    (⟨treev_ka A r, treev_kb A r⟩ : ℂ) ≠ 0 := by
  intro hc
  have h1 : Complex.abs ⟨treev_ka A r, treev_kb A r⟩ = 0 := by
    rw [hc]
    simp
  rw [treev_abs_z] at h1
  have := treev_h_pos A r hA hr
  linarith

theorem treev_kc_ge_half (A r : ℝ) :
    1 / 2 ≤ treev_kc A r := by
  unfold treev_kc atan2
  have harg0 : 0 ≤ Complex.arg ⟨treev_ka A r, treev_kb A r⟩ := by
    rw [Complex.arg_nonneg_iff]
    exact treev_kb_nonneg A r
  have hargpi : Complex.arg ⟨treev_ka A r, treev_kb A r⟩ ≤ Real.pi :=
    Complex.arg_le_pi _
  have h1 : Complex.arg ⟨treev_ka A r, treev_kb A r⟩ / 3.0 ≤ Real.pi / 3 := by
    norm_num
    linarith
  have h2 : (0 : ℝ) ≤ Complex.arg ⟨treev_ka A r, treev_kb A r⟩ / 3.0 := by
    positivity
  have h3 : Real.pi / 3 ≤ Real.pi := by
    have := Real.pi_pos
    linarith
  calc (1 : ℝ) / 2 = Real.cos (Real.pi / 3) := (Real.cos_pi_div_three).symm
    _ ≤ Real.cos (Complex.arg ⟨treev_ka A r, treev_kb A r⟩ / 3.0) := by
        apply Real.cos_le_cos_of_nonneg_of_le_pi h2 h3 h1

theorem treev_kc_cubic (A r : ℝ) (hA : 0 < A) (hr : 8192 ≤ r) :
    4 * treev_kc A r ^ 3 - 3 * treev_kc A r =
      treev_ka A r / hypot (treev_ka A r) (treev_kb A r) := by
  have h1 : Real.cos (3 * (Complex.arg ⟨treev_ka A r, treev_kb A r⟩ / 3.0)) =
      4 * treev_kc A r ^ 3 - 3 * treev_kc A r := by
    rw [Real.cos_three_mul]
    rfl
  have h2 : (3 : ℝ) * (Complex.arg ⟨treev_ka A r, treev_kb A r⟩ / 3.0) =
      Complex.arg ⟨treev_ka A r, treev_kb A r⟩ := by
    have h30 : (3.0 : ℝ) = 3 := by norm_num
    rw [h30]
    ring
  rw [h2] at h1
  rw [← h1, Complex.cos_arg (treev_z_ne_zero A r hA hr), treev_abs_z]

theorem treev_d_eq (A r : ℝ) (hA : 0 < A) (hr : 8192 ≤ r) :
    treev_d A r = (treev_kc A r * treev_kd A r -
      (2 * r + TREEV_PLATFORM_SPACING_WIDTH)) / 3 := by
  have hkd2 := treev_kd_sq A r hA hr
  have hkdne : treev_kd A r ≠ 0 := ne_of_gt (treev_kd_pos A r hA hr)
  have hQ : (8.0 * (r * r) - 4.0 * (512.0 : ℝ) * r + 2.0 * ((512.0 : ℝ) * 512.0)) / 3.0
      + 4.0 * A + 2.0 * (512.0 : ℝ) = -2 * treev_p A r := by
    simp only [treev_p, TREEV_PLATFORM_SPACING_WIDTH]
    ring
  have e2 : -2 * treev_p A r * treev_kc A r / treev_kd A r =
      treev_kc A r * treev_kd A r / 6 := by
    have e3 : (-2 : ℝ) * treev_p A r = treev_kd A r ^ 2 / 6 := by
      rw [hkd2]; ring
    rw [e3]
    field_simp
    ring
  simp only [treev_d, TREEV_PLATFORM_SPACING_WIDTH]
  rw [hQ, e2]
  ring

theorem treev_cubic_root (A r : ℝ) (hA : 0 < A) (hr : 8192 ≤ r) :
    treev_d A r ^ 3 + (2 * r + TREEV_PLATFORM_SPACING_WIDTH) * treev_d A r ^ 2 +
      (2 * TREEV_PLATFORM_SPACING_WIDTH * r - 2 * A - TREEV_PLATFORM_SPACING_WIDTH) *
        treev_d A r - 2 * A * r = 0 := by
  have hkd3 := treev_kd_cube A r
  have hkd2 := treev_kd_sq A r hA hr
  have hh := treev_h_pos A r hA hr
  have hcos := treev_kc_cubic A r hA hr
  have hcos2 : (4 * treev_kc A r ^ 3 - 3 * treev_kc A r) *
      hypot (treev_ka A r) (treev_kb A r) = treev_ka A r := by
    rw [hcos]
    field_simp
  have hka := treev_ka_eq A r
  have hpkd12 : 12 * (treev_p A r * treev_kd A r) =
      - hypot (treev_ka A r) (treev_kb A r) := by
    have h1 : treev_kd A r ^ 3 = -12 * treev_p A r * treev_kd A r := by
      rw [← hkd2]; ring
    rw [hkd3] at h1
    linarith
  have hp : treev_p A r = (2 * 512.0 * r - 2 * A - 512.0) -
      (2 * r + 512.0) ^ 2 / 3 := by
    simp only [treev_p, TREEV_PLATFORM_SPACING_WIDTH]
    ring
  have hq : treev_q A r = 2 * (2 * r + 512.0) ^ 3 / 27 -
      (2 * r + 512.0) * (2 * 512.0 * r - 2 * A - 512.0) / 3 - 2 * A * r := by
    simp only [treev_q, TREEV_PLATFORM_SPACING_WIDTH]
    ring
  rw [treev_d_eq A r hA hr]
  simp only [TREEV_PLATFORM_SPACING_WIDTH]
  linear_combination (treev_kc A r ^ 3 / 27) * hkd3 +
    (treev_kc A r / 36) * hpkd12 + (1 / 108) * hcos2 + (1 / 108) * hka -
    (treev_kc A r * treev_kd A r / 3) * hp - hq

theorem treev_d_pos (A r : ℝ) (hA : 0 < A) (hr : 8192 ≤ r) : 0 < treev_d A r := by
  have hkdpos := treev_kd_pos A r hA hr
  have hkc := treev_kc_ge_half A r
  have hkd2 := treev_kd_sq A r hA hr
  have hroot := treev_cubic_root A r hA hr
  simp only [TREEV_PLATFORM_SPACING_WIDTH] at hroot
  have hd := treev_d_eq A r hA hr
  simp only [TREEV_PLATFORM_SPACING_WIDTH] at hd
  have hpeq : treev_p A r = (2 * 512.0 * r - 2 * A - 512.0) -
      (2 * r + 512.0) ^ 2 / 3 := by
    simp only [treev_p, TREEV_PLATFORM_SPACING_WIDTH]
    ring
  have hlin : 3 * treev_d A r + (2 * r + 512.0) =
      treev_kc A r * treev_kd A r := by
    rw [hd]
    ring
  have hgekd : treev_kd A r / 2 ≤ treev_kc A r * treev_kd A r := by
    have h1 := mul_le_mul_of_nonneg_right hkc hkdpos.le
    linarith
  have hm2 : (treev_kd A r / 2) ^ 2 =
      (2 * r + 512.0) ^ 2 - 3 * (2 * 512.0 * r - 2 * A - 512.0) := by
    rw [div_pow, hkd2, hpeq]
    ring
  have hprod : treev_d A r * (treev_d A r ^ 2 + (2 * r + 512.0) * treev_d A r +
      (2 * 512.0 * r - 2 * A - 512.0)) = 2 * A * r := by
    linear_combination hroot
  by_contra hdle
  push_neg at hdle
  have hrpos : (0 : ℝ) < r := by linarith
  have hAr : 0 < 2 * A * r := by
    have h1 := mul_pos hA hrpos
    linarith
  have hdne : treev_d A r ≠ 0 := by
    intro hc
    rw [hc, zero_mul] at hprod
    linarith
  have hdneg : treev_d A r < 0 := lt_of_le_of_ne hdle hdne
  have hQ : treev_d A r ^ 2 + (2 * r + 512.0) * treev_d A r +
      (2 * 512.0 * r - 2 * A - 512.0) < 0 := by
    by_contra hq0
    push_neg at hq0
    have h1 := mul_nonneg (neg_nonneg.mpr hdneg.le) hq0
    linarith [hprod, hAr, h1]
  have hsum : (0 : ℝ) ≤ treev_kc A r * treev_kd A r + treev_kd A r / 2 := by
    linarith
  have hsq : (treev_kd A r / 2) ^ 2 ≤ (3 * treev_d A r + (2 * r + 512.0)) ^ 2 := by
    rw [hlin]
    have h1 := mul_nonneg (sub_nonneg.mpr hgekd) hsum
    nlinarith [h1]
  have hE1 : 0 ≤ 3 * treev_d A r ^ 2 + 2 * (2 * r + 512.0) * treev_d A r +
      (2 * 512.0 * r - 2 * A - 512.0) := by
    have h9 : (3 * treev_d A r + (2 * r + 512.0)) ^ 2 =
        3 * (3 * treev_d A r ^ 2 + 2 * (2 * r + 512.0) * treev_d A r +
          (2 * 512.0 * r - 2 * A - 512.0)) +
        ((2 * r + 512.0) ^ 2 - 3 * (2 * 512.0 * r - 2 * A - 512.0)) := by
      ring
    rw [hm2] at hsq
    linarith [hsq, h9.ge, h9.le]
  have hfac : 0 < treev_d A r * (2 * treev_d A r + (2 * r + 512.0)) := by
    have hsub : treev_d A r * (2 * treev_d A r + (2 * r + 512.0)) =
        (3 * treev_d A r ^ 2 + 2 * (2 * r + 512.0) * treev_d A r +
          (2 * 512.0 * r - 2 * A - 512.0)) -
        (treev_d A r ^ 2 + (2 * r + 512.0) * treev_d A r +
          (2 * 512.0 * r - 2 * A - 512.0)) := by
      ring
    rw [hsub]
    linarith
  have h2d : 2 * treev_d A r + (2 * r + 512.0) < 0 := by
    by_contra h2
    push_neg at h2
    have h1 := mul_nonneg (neg_nonneg.mpr hdneg.le) h2
    linarith
  have hd3 : - (2 * r + 512.0) / 3 ≤ treev_d A r := by
    have h3 : treev_kd A r / 2 ≤ 3 * treev_d A r + (2 * r + 512.0) := by
      rw [hlin]
      exact hgekd
    linarith
  linarith

theorem fmod_lt (x m : ℝ) (hm : 0 < m) : fmod x m < m := by
  have hm' : m ≠ 0 := ne_of_gt hm
  rw [fmod]
  by_cases h0 : 0 ≤ x / m
  · have hrt : rtrunc (x / m) = ⌊x / m⌋ := by rw [rtrunc, if_pos h0]
    rw [hrt]
    have hf : x / m - ⌊x / m⌋ < 1 := by
      have h1 := Int.sub_one_lt_floor (x / m)
      linarith
    have h2 : m * (x / m - ⌊x / m⌋) < m * 1 := mul_lt_mul_of_pos_left hf hm
    have h3 : m * (x / m) = x := by field_simp
    have h4 : x - m * ((⌊x / m⌋ : ℤ) : ℝ) = m * (x / m - ⌊x / m⌋) := by
      rw [mul_sub, h3]
    rw [h4]
    linarith
  · have hrt : rtrunc (x / m) = ⌈x / m⌉ := by rw [rtrunc, if_neg h0]
    rw [hrt]
    have hc : x / m ≤ ((⌈x / m⌉ : ℤ) : ℝ) := Int.le_ceil (x / m)
    have h2 : m * (x / m) ≤ m * ((⌈x / m⌉ : ℤ) : ℝ) :=
      mul_le_mul_of_nonneg_left hc hm.le
    have h3 : m * (x / m) = x := by field_simp
    linarith

theorem treev_area_pos (n : ℕ) : 0 < treev_area n := by
  rw [treev_area]
  simp only [TREEV_LEAF_NODE_EDGE]
  have h1 : (1 : ℝ) ≤ ((max 1 n : ℕ) : ℝ) := by
    exact_mod_cast le_max_left 1 n
  have h2 : (1 : ℝ) ≤ Real.sqrt ((max 1 n : ℕ) : ℝ) := by
    rw [show (1 : ℝ) = Real.sqrt 1 by rw [Real.sqrt_one]]
    exact Real.sqrt_le_sqrt h1
  have h4 : (1 : ℝ) ≤ ((⌈Real.sqrt ((max 1 n : ℕ) : ℝ)⌉ : ℤ) : ℝ) :=
    le_trans h2 (Int.le_ceil _)
  nlinarith [h4]

/-- **C7** (confirmed): for every directory platform reshaped at inner radius
r0 ≥ TREEV_MIN_CORE_RADIUS with any child count n (estimated target area
treev_area n > 0), treev_reshape_platform assigns depth > 0 and
arc_width ≥ min_arc_width(r0) = (180·(2·TREEV_LEAF_NODE_EDGE +
TREEV_PLATFORM_SPACING_WIDTH)/π)/r0, and before the row-rounding adjustment
the Cardano solution d satisfies the square-aspect relation exactly: the
outer-edge arc length π·theta·(r0+d)/180 minus the spacing width equals d,
and d is a root of the cubic d³+(2r0+w)d²+(2wr0-2A-w)d-2Ar0 = 0
(geometry.c:1441-1514). -/
theorem treev_reshape_platform_spec (n : ℕ) (r0 : ℝ)
    (hr : TREEV_MIN_CORE_RADIUS ≤ r0) :
    0 < (treev_reshape_platform n r0).1 ∧
    treev_min_arc_width r0 ≤ (treev_reshape_platform n r0).2 ∧
    Real.pi * treev_theta (treev_area n) r0 * (r0 + treev_d (treev_area n) r0)
        / 180 - TREEV_PLATFORM_SPACING_WIDTH = treev_d (treev_area n) r0 ∧
    treev_d (treev_area n) r0 ^ 3
      + (2 * r0 + TREEV_PLATFORM_SPACING_WIDTH) * treev_d (treev_area n) r0 ^ 2
      + (2 * TREEV_PLATFORM_SPACING_WIDTH * r0 - 2 * treev_area n
          - TREEV_PLATFORM_SPACING_WIDTH) * treev_d (treev_area n) r0
      - 2 * treev_area n * r0 = 0 := by
  have hA := treev_area_pos n
  have hr8 : (8192 : ℝ) ≤ r0 := by
    have h : (8192.0 : ℝ) = 8192 := by norm_num
    rw [TREEV_MIN_CORE_RADIUS, h] at hr
    exact hr
  have hd := treev_d_pos (treev_area n) r0 hA hr8
  refine ⟨?_, ?_, ?_, treev_cubic_root (treev_area n) r0 hA hr8⟩
  · have hfm : fmod (treev_d (treev_area n) r0 - 0.5 * 256.0) (1.5 * 256.0) <
        1.5 * 256.0 :=
      fmod_lt _ _ (by norm_num)
    simp only [treev_reshape_platform, treev_depth_rounded, TREEV_LEAF_NODE_EDGE]
    linarith
  · simp only [treev_reshape_platform]
    exact le_max_left _ _
  · have hsum : 0 < r0 + treev_d (treev_area n) r0 := by linarith
    have hden : Real.pi * (r0 + treev_d (treev_area n) r0) ≠ 0 :=
      ne_of_gt (mul_pos Real.pi_pos hsum)
    simp only [treev_theta, TREEV_PLATFORM_SPACING_WIDTH]
    field_simp
    ring

/-- Witness for C7: the hypothesis holds at r0 = 8192, and the theorem gives
a positive depth for a platform with one child there. -/
theorem treev_reshape_platform_spec_witness :
    TREEV_MIN_CORE_RADIUS ≤ (8192 : ℝ) ∧ 0 < (treev_reshape_platform 1 8192).1 :=
  ⟨by norm_num [TREEV_MIN_CORE_RADIUS],
   (treev_reshape_platform_spec 1 8192 (by norm_num [TREEV_MIN_CORE_RADIUS])).1⟩
